import Mathlib

/-!
Verification development for the altiumate automation tool
(`src/altiumate/main.py`, `src/altiumate/config.py`).

Strings from the Python side are modelled as `List Char` (`Str`), file
system time stamps and durations as `ℚ` (Python floats from `time.time`
and `os.path.getmtime` carry sub-second precision), fallible Python code
as `Except`.  Each definition is a direct transcription of the
corresponding Python function; the doc comment of every definition names
the source lines it embeds.
-/

deriving instance DecidableEq for Except

namespace Altiumate

abbrev Str : Type := List Char

/-- Dictionary lookup, `d[key]` for a Python `dict` modelled as an
insertion-ordered association list with unique keys. -/
def dictLookup : List (Str × Str) → Str → Option Str
  | [], _ => none
  | (k, v) :: rest, key => if k = key then some v else dictLookup rest key

/-- Python `d[key] = value` on an insertion-ordered `dict`: an existing
key keeps its position and gets the new value, a new key is appended. -/
def dictInsert : List (Str × Str) → Str → Str → List (Str × Str)
  | [], k, v => [(k, v)]
  | (k', v') :: rest, k, v =>
    if k' = k then (k, v) :: rest else (k', v') :: dictInsert rest k v

/-! ## Executable locator (`main.py` lines 97–159) -/

/-- Errors raised by `get_altium_path` (`main.py` 109–159).  The Python
code raises `FileNotFoundError` in all three cases, with distinct
messages; the constructors record which message is produced.
`keyError` models a `KeyError` from `installs[filtered[0]]`, which cannot
actually occur because `filtered` only holds keys of `installs`. -/
inductive LocateError where
  | notInstalled : LocateError
  | versionNotFound : Str → LocateError
  | ambiguous : Str → List Str → LocateError
  | keyError : LocateError
deriving DecidableEq

/-- Embedding of `get_altium_path` (`main.py` 109–159).

* `version` is the optional version hint (`None` ↦ `none`).
* `running` is the result of `find_altium_process()` (`main.py` 97–106):
  the executable path of a live `X2.exe` process, if any.
* `registry` is the enumeration of `SOFTWARE\Altium\Builds`:
  `.error ()` when the key is missing or access fails, otherwise the
  insertion-ordered `Version ↦ ProgramsInstallPath/X2.exe` dictionary.

The filter branch is guarded by `if version:` (`main.py` 149), a Python
TRUTHINESS test: it is skipped both for `None` and for the empty string,
and control then falls to `for ver in installs: return installs[ver]`,
which yields the first installed build — or falls off the end returning
`None` on an empty dict, hence the `Option Str` in the success type.
Only the earlier `if version is None` (`main.py` 128) is an identity
test, so the empty-string hint does not probe the process list but does
bypass the filter. -/
def get_altium_path (version : Option Str) (running : Option Str)
    (registry : Except Unit (List (Str × Str))) : Except LocateError (Option Str) :=
  let v := if version = some "any".data then none else version
  match v, running with
  | none, some p => .ok (some p)
  | v, _ =>
    match registry with
    | .error _ => .error .notInstalled
    | .ok installs =>
      match v with
      | some ver =>
        if ver = [] then .ok (installs.head?.map Prod.snd)
        else
          match (installs.map Prod.fst).filter (fun k => ver.isPrefixOf k) with
          | [] => .error (.versionNotFound ver)
          | [k] =>
            match dictLookup installs k with
            | some p => .ok (some p)
            | none => .error .keyError
          | ks => .error (.ambiguous ver ks)
      | none => .ok (installs.head?.map Prod.snd)

/-! ## Run timeout resolution (`main.py` 405–413, `config.py` 6) -/

/-- `DEFAULT_RUN_TIMEOUT = 60.0` (`config.py` line 6). -/
def DEFAULT_RUN_TIMEOUT : ℚ := 60

/-- Outcome of the timeout-argument processing: the value used by the
wait loop together with whether a diagnostic was logged for an
unparsable argument (`logger.error` in `main.py` 408–410). -/
structure TimeoutResolution where
  value : ℚ
  warned : Bool
deriving DecidableEq

/-- Embedding of `main.py` 405–413.  `parsed` is the result of
`float(args.timeout)`: `none` when the conversion raises.  An unparsable
value falls back to `DEFAULT_RUN_TIMEOUT` with a logged diagnostic; the
two `assert` statements then abort (modelled as `.error` carrying the
assertion message) when the value in hand is out of the sane range. -/
def resolve_timeout (parsed : Option ℚ) : Except String TimeoutResolution :=
  let r : TimeoutResolution :=
    match parsed with
    | some v => ⟨v, false⟩
    | none => ⟨DEFAULT_RUN_TIMEOUT, true⟩
  if r.value > 3 then
    if r.value < 3600 then .ok r
    else .error "Timeout must be less than 1 hour"
  else .error "Timeout must be larger than 3 seconds"

/-! ## Launch-and-synchronize wait loop (`main.py` 415–449) -/

/-- State of the status artifact file (`AD_return_file`) as observed at
one poll: whether `AD_return_file.exists()` and the value of
`os.path.getmtime(AD_return_file)`. -/
structure FileObs where
  present : Bool
  mtime : ℚ
deriving DecidableEq

/-- One iteration of the wait loop observes the clock twice:
`tCheck` is the `time.time()` in the `while` condition, `tBody` the
`time.time()` in the loop body that updates the `timeout` flag. -/
structure PollObs where
  tCheck : ℚ
  file : FileObs
  tBody : ℚ
deriving DecidableEq

/-- The settle condition of the `while` loop (`main.py` 428–431):
`AD_return_file.exists() and (time.time() - os.path.getmtime(AD_return_file)) > 0.1`. -/
def settledCond (o : PollObs) : Bool :=
  o.file.present && decide (o.tCheck - o.file.mtime > 1 / 10)

/-- How the wait loop terminates:  `settled o` when the `while` condition
became true at observation `o` with the `timeout` flag still clear (the
status artifact is then read), `timedOut` when it became true with the
flag set (the code raises `TimeoutError`), `exhausted` when the supplied
observation trace ends with the loop still running. -/
inductive WaitExit where
  | settled : PollObs → WaitExit
  | timedOut : WaitExit
  | exhausted : WaitExit
deriving DecidableEq

/-- Embedding of the wait loop of `_handle_run` (`main.py` 426–439),
run against a trace of environment observations.  `tflag` is the local
variable `timeout`, initially `False`; each pass through the body sets
it to `(time.time() - proc_start) > max_run_time`. -/
def waitLoop (proc_start max_run_time : ℚ) : Bool → List PollObs → WaitExit
  | _, [] => .exhausted
  | tflag, o :: rest =>
    if settledCond o || tflag then
      if tflag then .timedOut else .settled o
    else
      waitLoop proc_start max_run_time
        (decide (o.tBody - proc_start > max_run_time)) rest

/-! ## Script materializer (`main.py` 172–211) -/

/-- Number of (possibly overlapping) occurrences of the pattern `N` in a
string: one for every position at which `N` is a prefix of the remaining
suffix. -/
def countOccur (N : Str) : Str → Nat
  | [] => 0
  | c :: cs => (if N.isPrefixOf (c :: cs) then 1 else 0) + countOccur N cs

/-- The wrapper-procedure declaration text `Procedure RunFromAltiumate`,
emitted once by the template. -/
def procNeedle : Str := "Procedure RunFromAltiumate".data

/-- The status-variable declaration text `return_code: integer`,
emitted once by the template (the other template references to
`return_code` are assignments or uses, never this declaration). -/
def statusNeedle : Str := "return_code: integer".data

/-- One constant line `  k = 'v';` of the rendered Const block
(`main.py` 186). -/
def constLine (kv : Str × Str) : Str :=
  "  ".data ++ (kv.1 ++ (" = '".data ++ (kv.2 ++ "';".data)))

/-- The text `"\n" ++ line₁ ++ "\n" ++ ... ++ lineₙ ++ "\n"`, i.e. the
`f"\n{'\n'.join(lines)}\n"` part of the Const header, written with each
line preceded by its separating newline. -/
def headerTail : List (Str × Str) → Str
  | [] => "\n".data
  | kv :: rest => "\n".data ++ (constLine kv ++ headerTail rest)

/-- `header = f"Const\n{...}\n" if params else ""` (`main.py` 185–189). -/
def renderHeader (params : List (Str × Str)) : Str :=
  match params with
  | [] => []
  | _ => "Const".data ++ headerTail params

/-- Fixed template text from the start of the payload to the
interpolated status-file path (`main.py` 192–200). -/
def tmplA : Str :=
  ("Var\n  return_code: integer;\n\nProcedure RunFromAltiumate;\nVar\n  tmp_file: TextFile;\nBegin\n  return_code := 1;\n  AssignFile(tmp_file, '").data

/-- Fixed template text between the status-file path and the procedure
body (`main.py` 200–202). -/
def tmplB : Str := ("');\n  Try\n    ").data

/-- Fixed template text between the body and the optional terminate
instruction (`main.py` 202–208). -/
def tmplC : Str :=
  ("\n  Finally\n    ReWrite(tmp_file);\n    WriteLn(tmp_file, return_code);\n    CloseFile(tmp_file);\n  end;\n  ").data

/-- Closing fixed template text (`main.py` 208–210). -/
def tmplD : Str := ("\nEnd;\n").data

/-- `"TerminateWithExitCode(return_code);" if terminate else ""`
(`main.py` 208). -/
def terminateLine (terminate : Bool) : Str :=
  if terminate then "TerminateWithExitCode(return_code);".data else []

/-- The normalization `if call_procedure[-1] != ";": call_procedure += ";"`
(`main.py` 182–183); `none` models the `IndexError` raised on an empty
string. -/
def normalizeBody (body : Str) : Option Str :=
  match body.getLast? with
  | none => none
  | some c => if c = ';' then some body else some (body ++ [';'])

/-- Embedding of `render_constants` (`main.py` 172–211): the text
written to `AD_scripting/altiumate.pas`.  `retPath` is the interpolated
`AD_return_file.as_posix()`.  List append is associative; the
parenthesisation groups the template pieces for the occurrence
analysis. -/
def render_constants (retPath call_procedure : Str) (terminate : Bool)
    (params : List (Str × Str)) : Option Str :=
  (normalizeBody call_procedure).map fun body =>
    renderHeader params ++
      (tmplA ++ (retPath ++ (tmplB ++ (body ++
        (tmplC ++ (terminateLine terminate ++ tmplD))))))

/-! ## Project parameter scanner (`main.py` 452–493) -/

/-- Python `line.split("=", 1)[1]`: the text after the first `'='` of the
line; `none` models the uncaught `IndexError` when the line has no `'='`. -/
def afterEq : Str → Option Str
  | [] => none
  | c :: cs => if c = '=' then some cs else afterEq cs

/-- The marker test `re.compile(r"\[Parameter[0-9]").match(line)`
(`main.py` 473, 489).  `re.match` anchors at the start of the string, so
the test holds exactly when the line begins with `[Parameter` followed
by a decimal digit. -/
def checkParam (s : Str) : Bool :=
  "[Parameter".data.isPrefixOf s &&
    match s.drop 10 with
    | c :: _ => c.isDigit
    | [] => false

/-- Embedding of the scan loop of `parse_prjpcb_params` (`main.py`
466–493) over the newline-stripped lines of the project file, carrying
the output dictionary `out`.  On a marker line the two following lines
are consumed as name and value (text after their first `'='`);
`.error ()` models the uncaught `IndexError`/`StopIteration` when they
are missing or have no `'='`. -/
def parseParamLines : List Str → List (Str × Str) → Except Unit (List (Str × Str))
  | [], out => .ok out
  | l :: rest, out =>
    if checkParam l then
      match rest with
      | ln :: lv :: rest2 =>
        match afterEq ln with
        | some n =>
          match afterEq lv with
          | some v => parseParamLines rest2 (dictInsert out n v)
          | none => .error ()
        | none => .error ()
      | _ => .error ()
    else parseParamLines rest out

/-- `parse_prjpcb_params` (`main.py` 452–493) on the file's lines. -/
def parse_prjpcb_params (lines : List Str) : Except Unit (List (Str × Str)) :=
  parseParamLines lines []

/-- Modelled from the claim's wording: a line merely CONTAINING the
bracketed token `[Parameter<digit>` somewhere (not necessarily at the
start of the line). -/
def containsParamTok : Str → Bool
  | [] => false
  | c :: cs => checkParam (c :: cs) || containsParamTok cs

/-- The scan as the claim words it: any line CONTAINING the marker token
starts a two-line pair.  Used only to state the counterexample against
the claim's "containing". -/
def claimParamScan : List Str → List (Str × Str) → Except Unit (List (Str × Str))
  | [], out => .ok out
  | l :: rest, out =>
    if containsParamTok l then
      match rest with
      | ln :: lv :: rest2 =>
        match afterEq ln with
        | some n =>
          match afterEq lv with
          | some v => claimParamScan rest2 (dictInsert out n v)
          | none => .error ()
        | none => .error ()
      | _ => .error ()
    else claimParamScan rest out

/-- The (name, value) pairs the scanner extracts, in encounter order,
before they are folded into the result dictionary. -/
def extractParamPairs : List Str → Except Unit (List (Str × Str))
  | [] => .ok []
  | l :: rest =>
    if checkParam l then
      match rest with
      | ln :: lv :: rest2 =>
        match afterEq ln with
        | some n =>
          match afterEq lv with
          | some v => (extractParamPairs rest2).map (fun ps => (n, v) :: ps)
          | none => .error ()
        | none => .error ()
      | _ => .error ()
    else extractParamPairs rest

/-- Folding a pair sequence into a Python `dict` in encounter order. -/
def buildDict (ps : List (Str × Str)) : List (Str × Str) :=
  ps.foldl (fun d p => dictInsert d p.1 p.2) []

/-- The value of the LAST pair named `key` in a pair sequence. -/
def lastVal : List (Str × Str) → Str → Option Str
  | [], _ => none
  | (k, v) :: ps, key =>
    match lastVal ps key with
    | some w => some w
    | none => if k = key then some v else none

/-- The names of a pair sequence in first-occurrence order, given the
names already `seen`. -/
def newKeys (seen : List Str) : List Str → List Str
  | [] => []
  | k :: ks => if k ∈ seen then newKeys seen ks else k :: newKeys (k :: seen) ks

/-! ## Documentation patcher (`main.py` 496–535) -/

/-- The literal closing marker `[](/)` of a documentation span. -/
def closerTok : Str := "[](/)".data

/-- The literal opening marker `[](` of a documentation span. -/
def openerTok : Str := "[](".data

/-- The `(.*?)\[\]\(/\)` tail of the compiled pattern
`\[\]\((.*?)\)(.*?)\[\]\(/\)` (`main.py` 518): from `s`, lazily match
the shortest run of non-newline characters (Python `.` does not match a
newline) followed by the literal closing marker; return the content and
the text after the marker, or `none` when no such match exists. -/
def findContent : Str → Option (Str × Str)
  | [] => none
  | c :: cs =>
    if closerTok.isPrefixOf (c :: cs) then some ([], (c :: cs).drop 5)
    else if c = '\n' then none
    else (findContent cs).map (fun p => (c :: p.1, p.2))

/-- The `(.*?)\)` part of the pattern, with backtracking: the key is the
shortest run of non-newline characters followed by `)` from which the
content search succeeds; when the content search fails the engine
backtracks and the `)` becomes part of the key.  Returns
(key, content, text after the closing marker). -/
def tryKey : Str → Option (Str × Str × Str)
  | [] => none
  | c :: cs =>
    if c = '\n' then none
    else if c = ')' then
      match findContent cs with
      | some p => some ([], p.1, p.2)
      | none => (tryKey cs).map (fun q => (c :: q.1, q.2.1, q.2.2))
    else (tryKey cs).map (fun q => (c :: q.1, q.2.1, q.2.2))

/-- One attempted match of the full pattern at the start of `s`. -/
def matchAt (s : Str) : Option (Str × Str × Str) :=
  if openerTok.isPrefixOf s then tryKey (s.drop 3) else none

/-- State threaded through `re.sub`'s replacer (`main.py` 515–529): the
caller's parameters dict (mutated in lenient mode) and the `inserted`
counter. -/
structure PatchState where
  params : List (Str × Str)
  inserted : Nat
deriving DecidableEq

/-- The replacer body (`main.py` 520–529) at one match with key `k`: a
present key rewrites the span to the parameter's value and increments
`inserted`; an absent key raises `KeyError(k)` when `fail_on_missing`
and otherwise inserts `k ↦ k` and substitutes the key itself. -/
def applyMatch (fail_on_missing : Bool) (st : PatchState) (k : Str) :
    Except Str (PatchState × Str) :=
  match dictLookup st.params k with
  | some v => .ok ({ st with inserted := st.inserted + 1 }, v)
  | none =>
    if fail_on_missing then .error k
    else .ok ({ st with params := dictInsert st.params k k }, k)

/-- `re.sub(insert_pattern, replacer, data)` (`main.py` 531): scan the
original text left to right; at a match emit
`f"[]({key}){parameters[key]}[](/)"` and resume after the matched text
(`re.sub` rescans the original string, never the replacement);
otherwise copy one character.  `fuel` makes the recursion structural;
every step consumes at least one character, so `fuel = s.length + 1`
never runs out (the `0` case is unreachable from `update_readme`). -/
def reSubF (fail_on_missing : Bool) : Nat → Str → PatchState →
    Except Str (Str × PatchState)
  | 0, _, st => .ok ([], st)
  | fuel + 1, s, st =>
    match matchAt s with
    | some (k, _c, rest) =>
      match applyMatch fail_on_missing st k with
      | .error e => .error e
      | .ok (st', v) =>
        (reSubF fail_on_missing fuel rest st').map
          (fun p => (openerTok ++ (k ++ ')' :: (v ++ (closerTok ++ p.1))), p.2))
    | none =>
      match s with
      | [] => .ok ([], st)
      | ch :: cs =>
        (reSubF fail_on_missing fuel cs st).map (fun p => (ch :: p.1, p.2))

/-- What `update_readme` (`main.py` 496–535) produces on success:  its
return value (the literal `0` of line 535), the text written back to
the file, the caller's dict after the call and the final `inserted`
counter. -/
structure PatchResult where
  ret : Int
  out : Str
  params : List (Str × Str)
  inserted : Nat
deriving DecidableEq

/-- Embedding of `update_readme` (`main.py` 496–535) on the file's
text. -/
def update_readme (content : Str) (parameters : List (Str × Str))
    (fail_on_missing : Bool) : Except Str PatchResult :=
  match reSubF fail_on_missing (content.length + 1) content ⟨parameters, 0⟩ with
  | .error k => .error k
  | .ok (out, st) => .ok ⟨0, out, st.params, st.inserted⟩

/-- The document file content after running `update_readme`: the file is
rewritten only after the full substitution pass succeeds
(`main.py` 531–533); an exception raised inside `re.sub` propagates
before the file is opened for writing, leaving it unmodified. -/
def fileAfter (content : Str) (parameters : List (Str × Str))
    (fail_on_missing : Bool) : Str :=
  match update_readme content parameters fail_on_missing with
  | .ok r => r.out
  | .error _ => content

/-- The (key, content) pairs of the matches found by the left-to-right
scan, independent of any parameters. -/
def findMatchesF : Nat → Str → List (Str × Str)
  | 0, _ => []
  | fuel + 1, s =>
    match matchAt s with
    | some (k, c, rest) => (k, c) :: findMatchesF fuel rest
    | none =>
      match s with
      | [] => []
      | _ :: cs => findMatchesF fuel cs

/-- The matches of the span pattern in `s`, in scan order. -/
def findMatches (s : Str) : List (Str × Str) := findMatchesF (s.length + 1) s

/-- A parameter value that cannot interfere with the span markers: it
contains no newline and no occurrence of the closing marker `[](/)`
(also none straddling into a following closing marker). -/
def SafeVal (v : Str) : Prop :=
  '\n' ∉ v ∧ ∀ i < v.length, ¬ closerTok <+: (v.drop i ++ closerTok)

instance : DecidablePred SafeVal := fun v => by
  unfold SafeVal
  infer_instance

/-- The first line of `s`: everything before the first newline. -/
def lineTail (s : Str) : Str := s.takeWhile (fun c => c != '\n')

/-- A position carrying `) … [](/)`: what a successful match needs after
the opening marker, all on one line. -/
def HasCombo (l : Str) : Prop := ∃ a b e, l = a ++ ')' :: (b ++ (closerTok ++ e))

/-- Scan correspondence between a document and its strict-mode patch
output: gap characters are copied (those positions do not match) and
each matched span `[](k)c[](/)` becomes `[](k)v[](/)` with
`v = params[k]`. -/
inductive Corr (params : List (Str × Str)) : Str → Str → Prop
  | nil : Corr params [] []
  | gap {c : Char} {s t : Str} :
      matchAt (c :: s) = none → Corr params s t → Corr params (c :: s) (c :: t)
  | repl {s t : Str} {k cont rest v : Str} :
      matchAt s = some (k, cont, rest) →
      dictLookup params k = some v →
      Corr params rest t →
      Corr params s (openerTok ++ (k ++ ')' :: (v ++ (closerTok ++ t))))

end Altiumate

namespace Altiumate

/-! ## Theorems: locator -/

theorem dictLookup_of_mem_keys {installs : List (Str × Str)} {k : Str}
    (h : k ∈ installs.map Prod.fst) :
    ∃ p, dictLookup installs k = some p ∧ (k, p) ∈ installs := by
  induction installs with
  | nil => simp at h
  | cons kv rest ih =>
    obtain ⟨k', v'⟩ := kv
    by_cases hk : k' = k
    · subst hk
      exact ⟨v', by simp [dictLookup], by simp⟩
    · simp only [List.map_cons, List.mem_cons] at h
      rcases h with h | h
      · exact absurd h.symm hk
      · obtain ⟨p, hp, hmem⟩ := ih h
        exact ⟨p, by simp [dictLookup, hk, hp], by simp [hmem]⟩

/-- C4 counterexample: the empty-string hint is a reachable caller
input (`--altium-version ""`), it starts every version string, and two
installs are present — the claim therefore predicts the `ambiguous`
failure listing both candidates; but `if version:` (`main.py` 149) is a
truthiness test, so the code skips the filter and returns the FIRST
installed build's path. -/
theorem run_locator_empty_hint_cex :
    (([(("24.9.1".data : Str), "C:/AD24/X2.exe".data),
       (("25.0.2".data : Str), "C:/AD25/X2.exe".data)].map Prod.fst).filter
        (fun s => ([] : Str).isPrefixOf s)).length = 2 ∧
    get_altium_path (some []) none
      (.ok [(("24.9.1".data : Str), "C:/AD24/X2.exe".data),
            (("25.0.2".data : Str), "C:/AD25/X2.exe".data)]) =
      .ok (some "C:/AD24/X2.exe".data) := by
  refine ⟨by decide, by decide⟩

/-- C4 amended: with a NONEMPTY concrete version hint, the locator
filters installed builds whose version string starts with the hint:
exactly one match returns that build's executable path, zero matches
fails with the `versionNotFound` error naming the version, two or more
matches fails with the `ambiguous` error listing the candidates.  The
empty hint is falsy to `if version:` and bypasses the filter like no
hint, returning the first installed build. -/
theorem run_locator_version_filter
    (installs : List (Str × Str)) (ver : Str) (running : Option Str)
    (hver : ver ≠ "any".data)
    (_hdistinct : (installs.map Prod.fst).Nodup) :
    (∀ k, ver ≠ [] →
      (installs.map Prod.fst).filter (fun s => ver.isPrefixOf s) = [k] →
      ∃ p, (k, p) ∈ installs ∧
        get_altium_path (some ver) running (.ok installs) = .ok (some p)) ∧
    (ver ≠ [] →
      (installs.map Prod.fst).filter (fun s => ver.isPrefixOf s) = [] →
      get_altium_path (some ver) running (.ok installs) =
        .error (.versionNotFound ver)) ∧
    (ver ≠ [] →
      2 ≤ ((installs.map Prod.fst).filter (fun s => ver.isPrefixOf s)).length →
      get_altium_path (some ver) running (.ok installs) =
        .error (.ambiguous ver
          ((installs.map Prod.fst).filter (fun s => ver.isPrefixOf s)))) ∧
    (ver = [] →
      get_altium_path (some ver) running (.ok installs) =
        .ok (installs.head?.map Prod.snd)) := by
  have hv : (if (some ver : Option Str) = some "any".data then none else some ver)
      = some ver := by
    simp [hver]
  refine ⟨?_, ?_, ?_, ?_⟩
  · intro k hne hk
    have hkmem : k ∈ installs.map Prod.fst := by
      have : k ∈ (installs.map Prod.fst).filter (fun s => ver.isPrefixOf s) := by
        simp [hk]
      exact List.mem_of_mem_filter this
    obtain ⟨p, hp, hmem⟩ := dictLookup_of_mem_keys hkmem
    refine ⟨p, hmem, ?_⟩
    unfold get_altium_path
    rw [hv]
    cases running <;> simp [hne, hk, hp]
  · intro hne hk
    unfold get_altium_path
    rw [hv]
    cases running <;> simp [hne, hk]
  · intro hne hk
    unfold get_altium_path
    rw [hv]
    cases running <;>
      rcases hlist : (installs.map Prod.fst).filter (fun s => ver.isPrefixOf s) with
        _ | ⟨a, _ | ⟨b, l⟩⟩ <;>
      simp_all
  · intro hne
    subst hne
    unfold get_altium_path
    rw [hv]
    cases running <;> simp

theorem run_locator_version_filter_witness :
    ∃ p, (("24.9.1".data : Str), p) ∈
        [(("24.9.1".data : Str), "C:/AD24/X2.exe".data),
         (("25.0.2".data : Str), "C:/AD25/X2.exe".data)] ∧
      get_altium_path (some "24".data) none
        (.ok [(("24.9.1".data : Str), "C:/AD24/X2.exe".data),
              (("25.0.2".data : Str), "C:/AD25/X2.exe".data)]) = .ok (some p) :=
  (run_locator_version_filter
    [(("24.9.1".data : Str), "C:/AD24/X2.exe".data),
     (("25.0.2".data : Str), "C:/AD25/X2.exe".data)]
    "24".data none (by decide) (by decide)).1 "24.9.1".data (by decide) (by decide)

/-- C5: with no version hint (or the wildcard "any"), a detectable
running instance short-circuits resolution: its executable path is
returned for every possible state of the installed-builds registry,
so the registry is never consulted. -/
theorem run_locator_running_instance
    (version : Option Str) (p : Str) (registry : Except Unit (List (Str × Str)))
    (h : version = none ∨ version = some "any".data) :
    get_altium_path version (some p) registry = .ok (some p) := by
  rcases h with h | h <;> subst h <;> simp [get_altium_path]

theorem run_locator_running_instance_witness :
    get_altium_path (some "any".data) (some "C:/AD/X2.exe".data) (.error ()) =
      .ok (some "C:/AD/X2.exe".data) :=
  run_locator_running_instance (some "any".data) "C:/AD/X2.exe".data (.error ())
    (Or.inr rfl)

/-! ## Theorems: timeout resolution -/

/-- C2 counterexample: a parsable timeout of 2 seconds lies outside the
sane range; the claim predicts a fallback to the fixed default, but the
code aborts the command with an assertion failure instead of falling
back (`assert max_run_time > 3`, `main.py` 412). -/
theorem run_timeout_out_of_range_aborts :
    resolve_timeout (some 2) = .error "Timeout must be larger than 3 seconds" ∧
    resolve_timeout (some 2) ≠ .ok ⟨DEFAULT_RUN_TIMEOUT, true⟩ ∧
    resolve_timeout (some 2) ≠ .ok ⟨DEFAULT_RUN_TIMEOUT, false⟩ := by
  have h : resolve_timeout (some 2) = .error "Timeout must be larger than 3 seconds" := by
    norm_num [resolve_timeout]
  exact ⟨h, by simp [h], by simp [h]⟩

/-- C2 amended: an unparsable timeout argument falls back to the fixed
default `DEFAULT_RUN_TIMEOUT` with a logged diagnostic and the run
proceeds; a parsable value outside the sane range (not above 3 seconds,
or at least an hour) aborts the command with an assertion failure rather
than falling back; in-range values are used as given. -/
theorem run_timeout_clamping :
    resolve_timeout none = .ok ⟨DEFAULT_RUN_TIMEOUT, true⟩ ∧
    (∀ v : ℚ, v ≤ 3 →
      resolve_timeout (some v) = .error "Timeout must be larger than 3 seconds") ∧
    (∀ v : ℚ, 3600 ≤ v →
      resolve_timeout (some v) = .error "Timeout must be less than 1 hour") ∧
    (∀ v : ℚ, 3 < v → v < 3600 → resolve_timeout (some v) = .ok ⟨v, false⟩) := by
  refine ⟨by norm_num [resolve_timeout, DEFAULT_RUN_TIMEOUT], ?_, ?_, ?_⟩
  · intro v hv
    simp [resolve_timeout, not_lt.mpr hv]
  · intro v hv
    have h3 : (3 : ℚ) < v := lt_of_lt_of_le (by norm_num) hv
    simp [resolve_timeout, not_lt.mpr hv, h3]
  · intro v hv1 hv2
    simp [resolve_timeout, hv1, hv2]

theorem run_timeout_clamping_witness :
    resolve_timeout none = .ok ⟨DEFAULT_RUN_TIMEOUT, true⟩ ∧
    resolve_timeout (some 10) = .ok ⟨10, false⟩ :=
  ⟨run_timeout_clamping.1, run_timeout_clamping.2.2.2 10 (by norm_num) (by norm_num)⟩

/-! ## Theorems: wait-loop debounce -/

theorem waitLoop_settled_inv (ps mt : ℚ) (tr : List PollObs) :
    ∀ (tflag : Bool) (o : PollObs),
      waitLoop ps mt tflag tr = .settled o →
      o.file.present = true ∧ 1 / 10 < o.tCheck - o.file.mtime := by
  induction tr with
  | nil =>
    intro tflag o h
    simp [waitLoop] at h
  | cons x rest ih =>
    intro tflag o h
    rw [waitLoop] at h
    by_cases hc : (settledCond x || tflag) = true
    · rw [if_pos hc] at h
      cases tflag with
      | true => simp at h
      | false =>
        simp only [if_neg Bool.false_ne_true, WaitExit.settled.injEq] at h
        subst h
        simp only [Bool.or_false] at hc
        have := hc
        unfold settledCond at this
        simp only [Bool.and_eq_true, decide_eq_true_eq] at this
        exact this
    · rw [if_neg hc] at h
      exact ih _ _ h

/-- C1: the wait loop of `_handle_run` treats the run as settled — and
the status artifact is subsequently read — only at an observation where
the artifact file exists and its last-modification age strictly exceeds
the 0.1 s debounce age (in particular the age is at least the debounce
age); a status artifact pre-seeded before the debounce age elapses is
therefore not accepted at any poll where its age is still within the
threshold. -/
theorem run_wait_debounce (proc_start max_run_time : ℚ) (tr : List PollObs)
    (o : PollObs) (h : waitLoop proc_start max_run_time false tr = .settled o) :
    o.file.present = true ∧ 1 / 10 < o.tCheck - o.file.mtime :=
  waitLoop_settled_inv proc_start max_run_time tr false o h

theorem run_wait_debounce_witness :
    (⟨1, ⟨true, 0⟩, 1⟩ : PollObs).file.present = true ∧
    (1 : ℚ) / 10 < (⟨1, ⟨true, 0⟩, 1⟩ : PollObs).tCheck -
      (⟨1, ⟨true, 0⟩, 1⟩ : PollObs).file.mtime :=
  run_wait_debounce 0 60 [⟨1, ⟨true, 0⟩, 1⟩] ⟨1, ⟨true, 0⟩, 1⟩
    (by norm_num [waitLoop, settledCond])

/-! ## Theorems: project parameter scanner -/

theorem dictLookup_dictInsert (d : List (Str × Str)) (k v key : Str) :
    dictLookup (dictInsert d k v) key =
      if k = key then some v else dictLookup d key := by
  induction d with
  | nil => simp [dictInsert, dictLookup]
  | cons kv rest ih =>
    obtain ⟨k', v'⟩ := kv
    by_cases h : k' = k
    · subst h
      by_cases hk : k' = key <;> simp [dictInsert, dictLookup, hk]
    · by_cases hk : k' = key
      · subst hk
        have : ¬ k = k' := fun hh => h hh.symm
        simp [dictInsert, dictLookup, h, this]
      · simp [dictInsert, dictLookup, h, hk, ih]

theorem keys_dictInsert (d : List (Str × Str)) (k v : Str) :
    (dictInsert d k v).map Prod.fst =
      if k ∈ d.map Prod.fst then d.map Prod.fst else d.map Prod.fst ++ [k] := by
  induction d with
  | nil => simp [dictInsert]
  | cons kv rest ih =>
    obtain ⟨k', v'⟩ := kv
    by_cases h : k' = k
    · subst h
      simp [dictInsert]
    · have : ¬ k = k' := fun hh => h hh.symm
      by_cases hm : k ∈ rest.map Prod.fst <;>
        simp [dictInsert, h, this, hm, ih]

theorem dictLookup_foldl (ps : List (Str × Str)) :
    ∀ (d : List (Str × Str)) (key : Str),
      dictLookup (ps.foldl (fun d p => dictInsert d p.1 p.2) d) key =
        match lastVal ps key with
        | some w => some w
        | none => dictLookup d key := by
  induction ps with
  | nil => intro d key; simp [lastVal]
  | cons p ps ih =>
    intro d key
    obtain ⟨k, v⟩ := p
    simp only [List.foldl_cons, ih, lastVal, dictLookup_dictInsert]
    by_cases h : k = key <;> cases hl : lastVal ps key <;> simp [h, hl]

theorem newKeys_congr (ks : List Str) :
    ∀ s1 s2 : List Str, (∀ x, x ∈ s1 ↔ x ∈ s2) → newKeys s1 ks = newKeys s2 ks := by
  induction ks with
  | nil => intro s1 s2 _; rfl
  | cons k ks ih =>
    intro s1 s2 h
    by_cases hk : k ∈ s1
    · have hk2 : k ∈ s2 := (h k).mp hk
      simp [newKeys, hk, hk2, ih s1 s2 h]
    · have hk2 : k ∉ s2 := fun hh => hk ((h k).mpr hh)
      simp only [newKeys, if_neg hk, if_neg hk2]
      refine congrArg _ (ih _ _ ?_)
      intro x
      simp [h x]

theorem keys_foldl (ps : List (Str × Str)) :
    ∀ d : List (Str × Str),
      (ps.foldl (fun d p => dictInsert d p.1 p.2) d).map Prod.fst =
        d.map Prod.fst ++ newKeys (d.map Prod.fst) (ps.map Prod.fst) := by
  induction ps with
  | nil => intro d; simp [newKeys]
  | cons p ps ih =>
    intro d
    obtain ⟨k, v⟩ := p
    simp only [List.foldl_cons, List.map_cons]
    rw [ih, keys_dictInsert]
    by_cases h : k ∈ d.map Prod.fst
    · rw [if_pos h]
      simp only [newKeys, if_pos h]
    · rw [if_neg h]
      simp only [newKeys, if_neg h]
      rw [List.append_assoc, List.singleton_append]
      refine congrArg _ (congrArg _ (newKeys_congr _ _ _ ?_))
      intro x
      simp [or_comm]

theorem keys_foldl_nodup (ps : List (Str × Str)) :
    ∀ d : List (Str × Str), (d.map Prod.fst).Nodup →
      ((ps.foldl (fun d p => dictInsert d p.1 p.2) d).map Prod.fst).Nodup := by
  induction ps with
  | nil => intro d h; simpa using h
  | cons p ps ih =>
    intro d h
    obtain ⟨k, v⟩ := p
    simp only [List.foldl_cons]
    refine ih _ ?_
    rw [keys_dictInsert]
    by_cases hm : k ∈ d.map Prod.fst
    · simpa [hm] using h
    · simp only [if_neg hm]
      refine List.Nodup.append h (List.nodup_singleton k) ?_
      intro a ha hb
      rw [List.mem_singleton] at hb
      subst hb
      exact hm ha

theorem parseParamLines_eq_extract (lines : List Str) :
    ∀ out, parseParamLines lines out =
      (extractParamPairs lines).map
        (fun ps => ps.foldl (fun d p => dictInsert d p.1 p.2) out) := by
  induction lines using extractParamPairs.induct with
  | case1 =>
    intro out
    simp [parseParamLines, extractParamPairs, Except.map]
  | case2 l hchk ln lv rest2 n hn v hv ih =>
    intro out
    simp only [parseParamLines, extractParamPairs, hchk, hn, hv, if_true]
    rw [ih]
    cases extractParamPairs rest2 <;> simp [Except.map]
  | case3 l hchk ln lv rest2 n hn hv =>
    intro out
    simp [parseParamLines, extractParamPairs, hchk, hn, hv, Except.map]
  | case4 l hchk ln lv rest2 hn =>
    intro out
    simp [parseParamLines, extractParamPairs, hchk, hn, Except.map]
  | case5 l rest hchk h =>
    intro out
    rcases rest with _ | ⟨a, _ | ⟨b, r⟩⟩
    · simp [parseParamLines, extractParamPairs, hchk, Except.map]
    · simp [parseParamLines, extractParamPairs, hchk, Except.map]
    · exact absurd rfl (h a b r)
  | case6 l rest hchk ih =>
    intro out
    have hc : checkParam l = false := by simpa using hchk
    rw [parseParamLines.eq_def, extractParamPairs.eq_def]
    simp only [hc, Bool.false_eq_true, if_false]
    exact ih out

/-! ## Theorems: script materializer -/

/-- No occurrence of `N` straddles the boundary of `x ++ y`. -/
def straddleFree (N x y : Str) : Prop :=
  ∀ j, j < N.length → 0 < j → ¬ (N.take j <:+ x ∧ N.drop j <+: y)

theorem prefix_of_append_of_le {N x y : Str} (h : N <+: x ++ y)
    (hlen : N.length ≤ x.length) : N <+: x := by
  rw [List.prefix_iff_eq_take] at h ⊢
  rw [h, List.take_append_eq_append_take, Nat.sub_eq_zero_of_le hlen]
  simp [List.take_take]

theorem prefix_split {N x y : Str} (h : N <+: x ++ y)
    (hlen : x.length < N.length) : x <+: N ∧ N.drop x.length <+: y := by
  obtain ⟨t, ht⟩ := h
  constructor
  · rw [List.prefix_iff_eq_take]
    calc x = (x ++ y).take x.length := (List.take_left x y).symm
      _ = (N ++ t).take x.length := by rw [ht]
      _ = N.take x.length ++ t.take (x.length - N.length) :=
          List.take_append_eq_append_take
      _ = N.take x.length := by
          rw [Nat.sub_eq_zero_of_le hlen.le, List.take_zero, List.append_nil]
  · refine ⟨t, ?_⟩
    calc N.drop x.length ++ t
        = N.drop x.length ++ t.drop (x.length - N.length) := by
          rw [Nat.sub_eq_zero_of_le hlen.le, List.drop_zero]
      _ = (N ++ t).drop x.length := List.drop_append_eq_append_drop.symm
      _ = (x ++ y).drop x.length := by rw [ht]
      _ = y := List.drop_left x y

theorem isPrefixOf_append_eq {N x y : Str} (hx : x ≠ [])
    (h : straddleFree N x y) : N.isPrefixOf (x ++ y) = N.isPrefixOf x := by
  have hiff : N <+: x ++ y ↔ N <+: x := by
    constructor
    · intro hxy
      by_cases hlen : N.length ≤ x.length
      · exact prefix_of_append_of_le hxy hlen
      · push_neg at hlen
        obtain ⟨hx', hy'⟩ := prefix_split hxy hlen
        exfalso
        refine h x.length hlen (List.length_pos.mpr hx) ⟨?_, hy'⟩
        rw [List.prefix_iff_eq_take] at hx'
        rw [← hx']
    · exact fun hp => hp.trans (List.prefix_append x y)
  by_cases hp : N <+: x
  · rw [List.isPrefixOf_iff_prefix.mpr (hiff.mpr hp),
      List.isPrefixOf_iff_prefix.mpr hp]
  · have hq : ¬ N <+: x ++ y := fun hc => hp (hiff.mp hc)
    have b1 : N.isPrefixOf (x ++ y) = false := by
      cases hb : N.isPrefixOf (x ++ y)
      · rfl
      · exact absurd (List.isPrefixOf_iff_prefix.mp hb) hq
    have b2 : N.isPrefixOf x = false := by
      cases hb : N.isPrefixOf x
      · rfl
      · exact absurd (List.isPrefixOf_iff_prefix.mp hb) hp
    rw [b1, b2]

theorem countOccur_append {N : Str} (x y : Str)
    (h : straddleFree N x y) :
    countOccur N (x ++ y) = countOccur N x + countOccur N y := by
  induction x with
  | nil => simp [countOccur]
  | cons c cs ih =>
    have hs : straddleFree N cs y := by
      intro j hj hj0 hc
      exact h j hj hj0 ⟨hc.1.trans (List.suffix_cons c cs), hc.2⟩
    calc countOccur N ((c :: cs) ++ y)
        = (if N.isPrefixOf ((c :: cs) ++ y) then 1 else 0) + countOccur N (cs ++ y) := by
          simp [countOccur]
      _ = (if N.isPrefixOf (c :: cs) then 1 else 0) +
            (countOccur N cs + countOccur N y) := by
          rw [isPrefixOf_append_eq (List.cons_ne_nil c cs) h, ih hs]
      _ = countOccur N (c :: cs) + countOccur N y := by
          simp only [countOccur]
          omega

theorem straddleFree_of_take_not_suffix {N x : Str} (y : Str)
    (h : ∀ j, j < N.length → 0 < j → ¬ N.take j <:+ x) : straddleFree N x y :=
  fun j hj hj0 hc => h j hj hj0 hc.1

theorem straddleFree_of_head {N x y : Str}
    (h : ∀ c, y.head? = some c → c ∉ N) : straddleFree N x y := by
  intro j hj hj0 hc
  have hd : N.drop j = N[j] :: N.drop (j + 1) := List.drop_eq_getElem_cons hj
  obtain ⟨t, ht⟩ := hc.2
  rw [hd] at ht
  have hhead : y.head? = some N[j] := by
    rw [← ht]
    rfl
  exact h N[j] hhead (List.getElem_mem hj)

theorem straddleFree_of_not_mem {N x : Str} (y : Str)
    (h : ∀ c ∈ x, c ∉ N) : straddleFree N x y := by
  intro j hj hj0 hc
  have hne : N.take j ≠ [] := by
    have : (N.take j).length = j := by
      rw [List.length_take]
      omega
    intro hnil
    rw [hnil] at this
    simp at this
    omega
  obtain ⟨c, hcm⟩ := List.exists_mem_of_ne_nil _ hne
  exact h c (hc.1.subset hcm) (List.take_subset j N hcm)

theorem prefix_append_dispatch {w a y : Str} (h : w <+: a ++ y) :
    w <+: a ∨ a <+: w := by
  by_cases hlen : w.length ≤ a.length
  · exact Or.inl (prefix_of_append_of_le h hlen)
  · push_neg at hlen
    exact Or.inr (prefix_split h hlen).1

theorem straddleFree_of_glue {N g : Str} (x y' : Str)
    (h : ∀ j, j < N.length → 0 < j →
      ¬ (g <+: N.drop j) ∧ ¬ (N.drop j <+: g)) :
    straddleFree N x (g ++ y') := by
  intro j hj hj0 hc
  rcases prefix_append_dispatch hc.2 with hd | hd
  · exact (h j hj hj0).2 hd
  · exact (h j hj hj0).1 hd

theorem headerTail_head (params : List (Str × Str)) :
    (headerTail params).head? = some '\n' := by
  cases params <;> rfl

theorem countOccur_headerTail {N : Str}
    (hnl : ('\n' : Char) ∉ N)
    (hsp : ∀ j, j < N.length → 0 < j → ¬ N.take j <:+ "  ".data)
    (heqs : ∀ j, j < N.length → 0 < j → ¬ N.take j <:+ " = '".data)
    (hglue_eq : ∀ j, j < N.length → 0 < j →
      ¬ (" = '".data <+: N.drop j) ∧ ¬ (N.drop j <+: " = '".data))
    (hglue_sc : ∀ j, j < N.length → 0 < j →
      ¬ ("';".data <+: N.drop j) ∧ ¬ (N.drop j <+: "';".data))
    (hc_sp : countOccur N "  ".data = 0)
    (hc_eq : countOccur N " = '".data = 0)
    (hc_sc : countOccur N "';".data = 0)
    (hc_nl : countOccur N "\n".data = 0)
    (params : List (Str × Str))
    (hvals : ∀ kv ∈ params, countOccur N kv.1 = 0 ∧ countOccur N kv.2 = 0) :
    countOccur N (headerTail params) = 0 := by
  induction params with
  | nil => exact hc_nl
  | cons kv rest ih =>
    have hv := hvals kv (by simp)
    have hline : countOccur N (constLine kv) = 0 := by
      have hsf4 : straddleFree N kv.2 ("';".data) := by
        have := straddleFree_of_glue (N := N) (g := "';".data) kv.2 [] hglue_sc
        simpa using this
      have h4 : countOccur N (kv.2 ++ "';".data) = 0 := by
        rw [countOccur_append _ _ hsf4, hv.2, hc_sc]
      have h3 : countOccur N (" = '".data ++ (kv.2 ++ "';".data)) = 0 := by
        rw [countOccur_append _ _ (straddleFree_of_take_not_suffix _ heqs), hc_eq, h4]
      have h2 : countOccur N (kv.1 ++ (" = '".data ++ (kv.2 ++ "';".data))) = 0 := by
        rw [countOccur_append _ _ (straddleFree_of_glue _ _ hglue_eq), hv.1, h3]
      rw [constLine, countOccur_append _ _ (straddleFree_of_take_not_suffix _ hsp),
        hc_sp, h2]
    have htail : countOccur N (headerTail rest) = 0 :=
      ih fun kv hm => hvals kv (by simp [hm])
    have hsf1 : straddleFree N "\n".data (constLine kv ++ headerTail rest) :=
      straddleFree_of_not_mem _ (by
        intro c hcm
        have hone : "\n".data = ['\n'] := rfl
        rw [hone, List.mem_singleton] at hcm
        subst hcm
        exact hnl)
    have hsf2 : straddleFree N (constLine kv) (headerTail rest) :=
      straddleFree_of_head (by
        intro c hhd
        rw [headerTail_head] at hhd
        cases hhd
        exact hnl)
    rw [headerTail, countOccur_append _ _ hsf1, countOccur_append _ _ hsf2,
      hc_nl, hline, htail]

theorem countOccur_renderHeader {N : Str}
    (hnl : ('\n' : Char) ∉ N)
    (hsp : ∀ j, j < N.length → 0 < j → ¬ N.take j <:+ "  ".data)
    (heqs : ∀ j, j < N.length → 0 < j → ¬ N.take j <:+ " = '".data)
    (hglue_eq : ∀ j, j < N.length → 0 < j →
      ¬ (" = '".data <+: N.drop j) ∧ ¬ (N.drop j <+: " = '".data))
    (hglue_sc : ∀ j, j < N.length → 0 < j →
      ¬ ("';".data <+: N.drop j) ∧ ¬ (N.drop j <+: "';".data))
    (hc_sp : countOccur N "  ".data = 0)
    (hc_eq : countOccur N " = '".data = 0)
    (hc_sc : countOccur N "';".data = 0)
    (hc_nl : countOccur N "\n".data = 0)
    (hc_const : countOccur N "Const".data = 0)
    (params : List (Str × Str))
    (hvals : ∀ kv ∈ params, countOccur N kv.1 = 0 ∧ countOccur N kv.2 = 0) :
    countOccur N (renderHeader params) = 0 := by
  cases params with
  | nil => rfl
  | cons kv rest =>
    have hsf : straddleFree N "Const".data (headerTail (kv :: rest)) :=
      straddleFree_of_head (by
        intro c hhd
        rw [headerTail_head] at hhd
        cases hhd
        exact hnl)
    show countOccur N ("Const".data ++ headerTail (kv :: rest)) = 0
    rw [countOccur_append _ _ hsf, hc_const,
      countOccur_headerTail hnl hsp heqs hglue_eq hglue_sc hc_sp hc_eq hc_sc hc_nl
        (kv :: rest) hvals]

theorem head?_append_of_head {a : Str} (b : Str) {c : Char}
    (h : a.head? = some c) : (a ++ b).head? = some c := by
  cases a <;> simp_all

theorem countOccur_payload {N : Str} (retPath body : Str) (terminate : Bool)
    (params : List (Str × Str))
    (h_head : countOccur N (renderHeader params) = 0)
    (hV : ('V' : Char) ∉ N)
    (hq : ('\'' : Char) ∉ N)
    (hnl : ('\n' : Char) ∉ N)
    (hA_s : ∀ j, j < N.length → 0 < j → ¬ N.take j <:+ tmplA)
    (hB_s : ∀ j, j < N.length → 0 < j → ¬ N.take j <:+ tmplB)
    (hC_s : ∀ j, j < N.length → 0 < j → ¬ N.take j <:+ tmplC)
    (hcA : countOccur N tmplA = 1)
    (hcB : countOccur N tmplB = 0)
    (hcC : countOccur N tmplC = 0)
    (hcD : countOccur N tmplD = 0)
    (hcT : countOccur N (terminateLine terminate) = 0)
    (hpath : countOccur N retPath = 0)
    (hbody : countOccur N body = 0) :
    countOccur N (renderHeader params ++ (tmplA ++ (retPath ++ (tmplB ++ (body ++
      (tmplC ++ (terminateLine terminate ++ tmplD))))))) = 1 := by
  have sf7 : straddleFree N (terminateLine terminate) tmplD :=
    straddleFree_of_head (by
      intro c hc
      have : tmplD.head? = some '\n' := rfl
      rw [this] at hc
      cases hc
      exact hnl)
  have sf6 : straddleFree N tmplC (terminateLine terminate ++ tmplD) :=
    straddleFree_of_take_not_suffix _ hC_s
  have sf5 : straddleFree N body (tmplC ++ (terminateLine terminate ++ tmplD)) :=
    straddleFree_of_head (by
      intro c hc
      have : tmplC.head? = some '\n' := rfl
      rw [head?_append_of_head _ this] at hc
      cases hc
      exact hnl)
  have sf4 : straddleFree N tmplB (body ++ (tmplC ++ (terminateLine terminate ++ tmplD))) :=
    straddleFree_of_take_not_suffix _ hB_s
  have sf3 : straddleFree N retPath
      (tmplB ++ (body ++ (tmplC ++ (terminateLine terminate ++ tmplD)))) :=
    straddleFree_of_head (by
      intro c hc
      have : tmplB.head? = some '\'' := rfl
      rw [head?_append_of_head _ this] at hc
      cases hc
      exact hq)
  have sf2 : straddleFree N tmplA
      (retPath ++ (tmplB ++ (body ++ (tmplC ++ (terminateLine terminate ++ tmplD))))) :=
    straddleFree_of_take_not_suffix _ hA_s
  have sf1 : straddleFree N (renderHeader params)
      (tmplA ++ (retPath ++ (tmplB ++ (body ++
        (tmplC ++ (terminateLine terminate ++ tmplD)))))) :=
    straddleFree_of_head (by
      intro c hc
      have : tmplA.head? = some 'V' := rfl
      rw [head?_append_of_head _ this] at hc
      cases hc
      exact hV)
  rw [countOccur_append _ _ sf1, countOccur_append _ _ sf2,
    countOccur_append _ _ sf3, countOccur_append _ _ sf4,
    countOccur_append _ _ sf5, countOccur_append _ _ sf6,
    countOccur_append _ _ sf7,
    h_head, hcA, hcB, hcC, hcD, hcT, hpath, hbody]

set_option maxRecDepth 40000 in
/-- C9 counterexample: a procedure body that itself contains the wrapper
declaration text makes the rendered payload contain the text
`Procedure RunFromAltiumate` twice, so "exactly one wrapper procedure
for every procedure body" fails as stated. -/
theorem run_render_payload_single_decls_cex :
    (render_constants "p".data "Procedure RunFromAltiumate".data false []).map
        (countOccur procNeedle) ≠ some 1 ∧
    (render_constants "p".data "Procedure RunFromAltiumate".data false []).map
        (countOccur procNeedle) = some 2 := by
  constructor <;> decide

set_option maxRecDepth 40000 in
/-- C9 amended: provided neither the procedure body, nor the
interpolated status-file path, nor any constant name or value contains
the declaration texts `Procedure RunFromAltiumate` or
`return_code: integer`, the rendered payload contains exactly one
status-variable declaration and exactly one wrapper procedure, and it
opens with a `Const` block exactly when the constants mapping is
non-empty. -/
theorem run_render_payload_structure
    (retPath call_procedure : Str) (terminate : Bool) (params : List (Str × Str))
    (hne : call_procedure ≠ [])
    (hP_body : countOccur procNeedle call_procedure = 0)
    (hS_body : countOccur statusNeedle call_procedure = 0)
    (hP_path : countOccur procNeedle retPath = 0)
    (hS_path : countOccur statusNeedle retPath = 0)
    (hP_params : ∀ kv ∈ params,
      countOccur procNeedle kv.1 = 0 ∧ countOccur procNeedle kv.2 = 0)
    (hS_params : ∀ kv ∈ params,
      countOccur statusNeedle kv.1 = 0 ∧ countOccur statusNeedle kv.2 = 0) :
    ∃ payload,
      render_constants retPath call_procedure terminate params = some payload ∧
      countOccur procNeedle payload = 1 ∧
      countOccur statusNeedle payload = 1 ∧
      ("Const".data <+: payload ↔ params ≠ []) := by
  obtain ⟨body, hbody_eq, hbP, hbS⟩ :
      ∃ body, normalizeBody call_procedure = some body ∧
        countOccur procNeedle body = 0 ∧ countOccur statusNeedle body = 0 := by
    cases hg : call_procedure.getLast? with
    | none => exact absurd (List.getLast?_eq_none_iff.mp hg) hne
    | some c =>
      by_cases hc : c = ';'
      · exact ⟨call_procedure, by simp [normalizeBody, hg, hc], hP_body, hS_body⟩
      · have hsfP : straddleFree procNeedle call_procedure [';'] :=
          straddleFree_of_head (by
            intro ch hch
            simp only [List.head?] at hch
            cases hch
            decide)
        have hsfS : straddleFree statusNeedle call_procedure [';'] :=
          straddleFree_of_head (by
            intro ch hch
            simp only [List.head?] at hch
            cases hch
            decide)
        refine ⟨call_procedure ++ [';'], by simp [normalizeBody, hg, hc], ?_, ?_⟩
        · rw [countOccur_append _ _ hsfP, hP_body]
          decide
        · rw [countOccur_append _ _ hsfS, hS_body]
          decide
  have hheadP : countOccur procNeedle (renderHeader params) = 0 :=
    countOccur_renderHeader (by decide) (by decide) (by decide) (by decide)
      (by decide) (by decide) (by decide) (by decide) (by decide) (by decide)
      params hP_params
  have hheadS : countOccur statusNeedle (renderHeader params) = 0 :=
    countOccur_renderHeader (by decide) (by decide) (by decide) (by decide)
      (by decide) (by decide) (by decide) (by decide) (by decide) (by decide)
      params hS_params
  have hTP : countOccur procNeedle (terminateLine terminate) = 0 := by
    cases terminate <;> decide
  have hTS : countOccur statusNeedle (terminateLine terminate) = 0 := by
    cases terminate <;> decide
  refine ⟨_, by rw [render_constants, hbody_eq]; rfl, ?_, ?_, ?_⟩
  · exact countOccur_payload retPath body terminate params hheadP
      (by decide) (by decide) (by decide) (by decide) (by decide) (by decide)
      (by decide) (by decide) (by decide) (by decide) hTP hP_path hbP
  · exact countOccur_payload retPath body terminate params hheadS
      (by decide) (by decide) (by decide) (by decide) (by decide) (by decide)
      (by decide) (by decide) (by decide) (by decide) hTS hS_path hbS
  · cases params with
    | nil =>
      simp only [renderHeader, List.nil_append]
      constructor
      · intro hpre
        obtain ⟨t, ht⟩ := hpre
        have h1 : (("Const".data ++ t).head? : Option Char) = some 'C' := rfl
        rw [ht, head?_append_of_head _ (rfl : tmplA.head? = some 'V')] at h1
        cases h1
      · intro hfalse
        exact absurd rfl hfalse
    | cons kv rest =>
      constructor
      · intro _
        exact List.cons_ne_nil kv rest
      · intro _
        show "Const".data <+:
          ("Const".data ++ headerTail (kv :: rest)) ++ _
        rw [List.append_assoc]
        exact List.prefix_append _ _

theorem run_render_payload_structure_witness :
    ∃ payload,
      render_constants "C:/altiumate/AD_out".data "test_altiumate".data false
        [("passed_files".data, "a.SchDoc".data)] = some payload ∧
      countOccur procNeedle payload = 1 ∧
      countOccur statusNeedle payload = 1 ∧
      ("Const".data <+: payload ↔
        [(("passed_files".data : Str), ("a.SchDoc".data : Str))] ≠ []) :=
  run_render_payload_structure "C:/altiumate/AD_out".data "test_altiumate".data
    false [("passed_files".data, "a.SchDoc".data)] (by decide) (by decide)
    (by decide) (by decide) (by decide) (by decide) (by decide)

/-- C8 counterexample: the marker test of `parse_prjpcb_params` is
anchored at the start of the line (`re.match`), so a line that merely
CONTAINS the token `[Parameter0]` does not start a two-line pair,
whereas the claim's reading of that input produces the pair `a ↦ b`. -/
theorem readme_scan_marker_anchored_cex :
    parse_prjpcb_params ["x[Parameter0]".data, "N=a".data, "V=b".data] = .ok [] ∧
    claimParamScan ["x[Parameter0]".data, "N=a".data, "V=b".data] [] =
      .ok [("a".data, "b".data)] ∧
    parse_prjpcb_params ["x[Parameter0]".data, "N=a".data, "V=b".data] ≠
      claimParamScan ["x[Parameter0]".data, "N=a".data, "V=b".data] [] := by
  refine ⟨by decide, by decide, by decide⟩

/-! ## Theorems: documentation patcher, marker matching -/

theorem findContent_eq {s cont rest : Str}
    (h : findContent s = some (cont, rest)) :
    s = cont ++ (closerTok ++ rest) ∧ ('\n' : Char) ∉ cont := by
  induction s generalizing cont rest with
  | nil => simp [findContent] at h
  | cons c cs ih =>
    rw [findContent] at h
    by_cases hp : closerTok.isPrefixOf (c :: cs)
    · rw [if_pos hp] at h
      obtain ⟨hcont, hrest⟩ : ([] : Str) = cont ∧ (c :: cs).drop 5 = rest := by
        cases h
        exact ⟨rfl, rfl⟩
      subst hcont
      subst hrest
      refine ⟨?_, by simp⟩
      have htake : closerTok = (c :: cs).take 5 :=
        List.prefix_iff_eq_take.mp (List.isPrefixOf_iff_prefix.mp hp)
      calc (c :: cs)
          = (c :: cs).take 5 ++ (c :: cs).drop 5 := (List.take_append_drop 5 _).symm
        _ = [] ++ (closerTok ++ (c :: cs).drop 5) := by rw [← htake]; rfl
    · rw [if_neg hp] at h
      by_cases hc : c = '\n'
      · rw [if_pos hc] at h
        cases h
      · rw [if_neg hc] at h
        obtain ⟨p, hp2, hf⟩ := Option.map_eq_some'.mp h
        obtain ⟨p1, p2⟩ := p
        obtain ⟨h1, h2⟩ : c :: p1 = cont ∧ p2 = rest := by
          cases hf
          exact ⟨rfl, rfl⟩
        subst h1
        subst h2
        obtain ⟨ih1, ih2⟩ := ih hp2
        constructor
        · rw [List.cons_append, ← ih1]
        · intro hm
          rcases List.mem_cons.mp hm with hm | hm
          · exact hc hm.symm
          · exact ih2 hm

theorem findContent_min {s cont rest : Str}
    (h : findContent s = some (cont, rest)) :
    ∀ i < cont.length, ¬ closerTok <+: s.drop i := by
  induction s generalizing cont rest with
  | nil => simp [findContent] at h
  | cons c cs ih =>
    rw [findContent] at h
    by_cases hp : closerTok.isPrefixOf (c :: cs)
    · rw [if_pos hp] at h
      have : ([] : Str) = cont := by
        cases h
        rfl
      subst this
      intro i hi
      simp at hi
    · rw [if_neg hp] at h
      by_cases hc : c = '\n'
      · rw [if_pos hc] at h
        cases h
      · rw [if_neg hc] at h
        obtain ⟨p, hp2, hf⟩ := Option.map_eq_some'.mp h
        have h1 : c :: p.1 = cont := by
          cases hf
          rfl
        subst h1
        intro i hi
        cases i with
        | zero =>
          intro hpre
          exact hp (List.isPrefixOf_iff_prefix.mpr hpre)
        | succ j =>
          simp only [List.length_cons, Nat.succ_lt_succ_iff] at hi
          exact ih (by rw [hp2]) j hi

theorem findContent_closer_prefix (rest : Str) :
    findContent (closerTok ++ rest) = some ([], rest) := by
  have h5 : (closerTok ++ rest).drop 5 = rest := by
    have hl : closerTok.length = 5 := rfl
    rw [← hl, List.drop_left]
  have hpre : closerTok.isPrefixOf (closerTok ++ rest) = true :=
    List.isPrefixOf_iff_prefix.mpr (List.prefix_append _ _)
  conv_lhs =>
    rw [show closerTok ++ rest = '[' :: (']' :: ('(' :: ('/' :: (')' :: rest))))
      from rfl]
  rw [findContent]
  rw [show ('[' :: (']' :: ('(' :: ('/' :: (')' :: rest))))) = closerTok ++ rest
    from rfl]
  rw [if_pos hpre, h5]

theorem findContent_complete {cont rest : Str} (hnl : ('\n' : Char) ∉ cont)
    (hmin : ∀ i < cont.length, ¬ closerTok <+: (cont ++ (closerTok ++ rest)).drop i) :
    findContent (cont ++ (closerTok ++ rest)) = some (cont, rest) := by
  induction cont with
  | nil =>
    rw [List.nil_append]
    exact findContent_closer_prefix rest
  | cons c p ih =>
    have hc : c ≠ '\n' := fun hh => hnl (hh ▸ List.mem_cons_self c p)
    have hnotpre : ¬ closerTok.isPrefixOf ((c :: p) ++ (closerTok ++ rest)) = true := by
      intro hpre
      exact hmin 0 (by simp) (by
        simpa using List.isPrefixOf_iff_prefix.mp hpre)
    rw [List.cons_append, findContent]
    rw [List.cons_append] at hnotpre
    rw [if_neg hnotpre, if_neg hc]
    have ihh := ih (fun hm => hnl (List.mem_cons_of_mem c hm))
      (fun i hi => by
        have := hmin (i + 1) (by simpa using Nat.succ_lt_succ hi)
        simpa using this)
    rw [ihh]
    rfl

theorem findContent_none_tail {c : Char} {cs : Str}
    (h : findContent (c :: cs) = none) (hc : c ≠ '\n') :
    findContent cs = none := by
  rw [findContent] at h
  by_cases hp : closerTok.isPrefixOf (c :: cs)
  · rw [if_pos hp] at h
    cases h
  · rw [if_neg hp, if_neg hc] at h
    cases hfc : findContent cs with
    | none => rfl
    | some p =>
      rw [hfc] at h
      cases h

theorem tryKey_none_of_findContent_none {s : Str}
    (h : findContent s = none) : tryKey s = none := by
  induction s with
  | nil => rfl
  | cons c cs ih =>
    rw [tryKey]
    by_cases hc : c = '\n'
    · rw [if_pos hc]
    · rw [if_neg hc]
      have htail : findContent cs = none := findContent_none_tail h hc
      have := ih htail
      by_cases hcp : c = ')'
      · rw [if_pos hcp, htail, this]
        rfl
      · rw [if_neg hcp, this]
        rfl

theorem tryKey_eq {s k cont rest : Str}
    (h : tryKey s = some (k, cont, rest)) :
    s = k ++ ')' :: (cont ++ (closerTok ++ rest)) ∧ ('\n' : Char) ∉ k ∧
      (')' : Char) ∉ k ∧
      findContent (cont ++ (closerTok ++ rest)) = some (cont, rest) := by
  induction s generalizing k cont rest with
  | nil => simp [tryKey] at h
  | cons c cs ih =>
    rw [tryKey] at h
    by_cases hc : c = '\n'
    · rw [if_pos hc] at h
      cases h
    · rw [if_neg hc] at h
      by_cases hcp : c = ')'
      · rw [if_pos hcp] at h
        cases hfc : findContent cs with
        | some p =>
          rw [hfc] at h
          obtain ⟨h1, h2, h3⟩ : ([] : Str) = k ∧ p.1 = cont ∧ p.2 = rest := by
            cases h
            exact ⟨rfl, rfl, rfl⟩
          subst h1
          subst h2
          subst h3
          obtain ⟨he, _⟩ := findContent_eq hfc
          subst hcp
          refine ⟨by rw [← he]; rfl, by simp, by simp, ?_⟩
          rw [← he, hfc]
        | none =>
          rw [hfc] at h
          rw [tryKey_none_of_findContent_none hfc] at h
          cases h
      · rw [if_neg hcp] at h
        obtain ⟨q, hq, hf⟩ := Option.map_eq_some'.mp h
        obtain ⟨h1, h2, h3⟩ : c :: q.1 = k ∧ q.2.1 = cont ∧ q.2.2 = rest := by
          cases hf
          exact ⟨rfl, rfl, rfl⟩
        subst h1
        subst h2
        subst h3
        obtain ⟨ih1, ih2, ih3, ih4⟩ := ih (by rw [hq])
        refine ⟨by rw [List.cons_append, ← ih1], ?_, ?_, ih4⟩
        · intro hm
          rcases List.mem_cons.mp hm with hm | hm
          · exact hc hm.symm
          · exact ih2 hm
        · intro hm
          rcases List.mem_cons.mp hm with hm | hm
          · exact hcp hm.symm
          · exact ih3 hm

theorem tryKey_complete {k : Str} (hk1 : ('\n' : Char) ∉ k)
    (hk2 : (')' : Char) ∉ k) {z cont rest : Str}
    (hz : findContent z = some (cont, rest)) :
    tryKey (k ++ ')' :: z) = some (k, cont, rest) := by
  induction k with
  | nil =>
    rw [List.nil_append, tryKey]
    rw [if_neg (by decide : ¬ (')' : Char) = '\n'), if_pos rfl, hz]
  | cons c p ih =>
    have hc : c ≠ '\n' := fun hh => hk1 (hh ▸ List.mem_cons_self c p)
    have hcp : c ≠ ')' := fun hh => hk2 (hh ▸ List.mem_cons_self c p)
    rw [List.cons_append, tryKey, if_neg hc, if_neg hcp,
      ih (fun hm => hk1 (List.mem_cons_of_mem c hm))
        (fun hm => hk2 (List.mem_cons_of_mem c hm))]
    rfl

theorem findContent_isSome {b : Str} (hb : ('\n' : Char) ∉ b) (c : Str) :
    (findContent (b ++ (closerTok ++ c))).isSome := by
  induction b with
  | nil =>
    rw [List.nil_append, findContent_closer_prefix]
    rfl
  | cons x b1 ih =>
    have hx : x ≠ '\n' := fun hh => hb (hh ▸ List.mem_cons_self x b1)
    rw [List.cons_append, findContent]
    by_cases hp : closerTok.isPrefixOf (x :: (b1 ++ (closerTok ++ c)))
    · rw [if_pos hp]
      rfl
    · rw [if_neg hp, if_neg hx]
      have := ih (fun hm => hb (List.mem_cons_of_mem x hm))
      cases hfc : findContent (b1 ++ (closerTok ++ c)) with
      | none => rw [hfc] at this; cases this
      | some p => rfl

theorem tryKey_isSome {a b : Str} (ha : ('\n' : Char) ∉ a)
    (hb : ('\n' : Char) ∉ b) (d : Str) :
    (tryKey (a ++ ')' :: (b ++ (closerTok ++ d)))).isSome := by
  induction a with
  | nil =>
    rw [List.nil_append, tryKey]
    rw [if_neg (by decide : ¬ (')' : Char) = '\n'), if_pos rfl]
    have := findContent_isSome hb d
    cases hfc : findContent (b ++ (closerTok ++ d)) with
    | none => rw [hfc] at this; cases this
    | some p => rfl
  | cons x a1 ih =>
    have hx : x ≠ '\n' := fun hh => ha (hh ▸ List.mem_cons_self x a1)
    have iha := ih (fun hm => ha (List.mem_cons_of_mem x hm))
    rw [List.cons_append, tryKey, if_neg hx]
    by_cases hxp : x = ')'
    · rw [if_pos hxp]
      have hsplit : a1 ++ ')' :: (b ++ (closerTok ++ d)) =
          (a1 ++ ')' :: b) ++ (closerTok ++ d) := by
        simp
      have hnl2 : ('\n' : Char) ∉ a1 ++ ')' :: b := by
        intro hm
        rcases List.mem_append.mp hm with hm | hm
        · exact ha (List.mem_cons_of_mem x hm)
        · rcases List.mem_cons.mp hm with hm | hm
          · cases hm
          · exact hb hm
      have := findContent_isSome hnl2 d
      rw [← hsplit] at this
      cases hfc : findContent (a1 ++ ')' :: (b ++ (closerTok ++ d))) with
      | none => rw [hfc] at this; cases this
      | some p => rfl
    · rw [if_neg hxp]
      cases htk : tryKey (a1 ++ ')' :: (b ++ (closerTok ++ d))) with
      | none => rw [htk] at iha; cases iha
      | some q => rfl

theorem lineTail_append_of_not_mem {w : Str} (hw : ('\n' : Char) ∉ w) (z : Str) :
    lineTail (w ++ z) = w ++ lineTail z := by
  induction w with
  | nil => rfl
  | cons c w1 ih =>
    have hc : c ≠ '\n' := fun hh => hw (hh ▸ List.mem_cons_self c w1)
    rw [List.cons_append, lineTail, List.takeWhile_cons,
      if_pos (by simpa using hc)]
    have := ih (fun hm => hw (List.mem_cons_of_mem c hm))
    rw [lineTail] at this
    rw [this]
    rfl

theorem lineTail_append_of_mem {w : Str} (hw : ('\n' : Char) ∈ w) (z : Str) :
    lineTail (w ++ z) = lineTail w := by
  induction w with
  | nil => cases hw
  | cons c w1 ih =>
    by_cases hc : c = '\n'
    · subst hc
      rw [List.cons_append, lineTail, lineTail, List.takeWhile_cons,
        List.takeWhile_cons]
      simp
    · have hw1 : ('\n' : Char) ∈ w1 := by
        rcases List.mem_cons.mp hw with hm | hm
        · exact absurd hm.symm hc
        · exact hm
      rw [List.cons_append, lineTail, lineTail, List.takeWhile_cons,
        List.takeWhile_cons, if_pos (by simpa using hc), if_pos (by simpa using hc)]
      have := ih hw1
      rw [lineTail, lineTail] at this
      rw [this]

theorem nl_not_mem_lineTail (s : Str) : ('\n' : Char) ∉ lineTail s := by
  intro hm
  have := List.mem_takeWhile_imp hm
  simp at this

theorem lineTail_prefix (s : Str) : lineTail s <+: s := List.takeWhile_prefix _

theorem matchAt_eq {s k c r : Str} (h : matchAt s = some (k, c, r)) :
    s = openerTok ++ (k ++ ')' :: (c ++ (closerTok ++ r))) ∧
      ('\n' : Char) ∉ k ∧ (')' : Char) ∉ k ∧ ('\n' : Char) ∉ c := by
  unfold matchAt at h
  by_cases hp : openerTok.isPrefixOf s
  · rw [if_pos hp] at h
    obtain ⟨h1, h2, h3, h4⟩ := tryKey_eq h
    obtain ⟨_, hc2⟩ := findContent_eq h4
    refine ⟨?_, h2, h3, hc2⟩
    have htake : openerTok = s.take 3 :=
      List.prefix_iff_eq_take.mp (List.isPrefixOf_iff_prefix.mp hp)
    calc s = s.take 3 ++ s.drop 3 := (List.take_append_drop 3 s).symm
      _ = openerTok ++ (k ++ ')' :: (c ++ (closerTok ++ r))) := by
          rw [← htake, h1]
  · rw [if_neg hp] at h
    cases h

theorem matchAt_rest_lt {s k c r : Str} (h : matchAt s = some (k, c, r)) :
    r.length < s.length := by
  obtain ⟨hs, _, _, _⟩ := matchAt_eq h
  rw [hs]
  simp only [List.length_append, List.length_cons]
  omega

theorem matchAt_complete {k v rest : Str} (hk1 : ('\n' : Char) ∉ k)
    (hk2 : (')' : Char) ∉ k) (hv : ('\n' : Char) ∉ v)
    (hsafe : ∀ i < v.length, ¬ closerTok <+: (v.drop i ++ closerTok)) :
    matchAt (openerTok ++ (k ++ ')' :: (v ++ (closerTok ++ rest)))) =
      some (k, v, rest) := by
  have hfc : findContent (v ++ (closerTok ++ rest)) = some (v, rest) := by
    apply findContent_complete hv
    intro i hi hpre
    have hdrop : (v ++ (closerTok ++ rest)).drop i =
        v.drop i ++ (closerTok ++ rest) := by
      rw [List.drop_append_eq_append_drop, Nat.sub_eq_zero_of_le hi.le,
        List.drop_zero]
    rw [hdrop, ← List.append_assoc] at hpre
    have hlen : closerTok.length ≤ (v.drop i ++ closerTok).length := by
      simp
    exact hsafe i hi (prefix_of_append_of_le hpre hlen)
  unfold matchAt
  rw [if_pos (List.isPrefixOf_iff_prefix.mpr (List.prefix_append _ _))]
  have hdrop3 : (openerTok ++ (k ++ ')' :: (v ++ (closerTok ++ rest)))).drop 3 =
      k ++ ')' :: (v ++ (closerTok ++ rest)) := by
    have hl : openerTok.length = 3 := rfl
    rw [← hl, List.drop_left]
  rw [hdrop3]
  exact tryKey_complete hk1 hk2 hfc

theorem matchAt_isSome_iff {s : Str} :
    (matchAt s).isSome ↔ openerTok <+: s ∧ HasCombo (lineTail (s.drop 3)) := by
  constructor
  · intro h
    cases hm : matchAt s with
    | none => rw [hm] at h; cases h
    | some t =>
      obtain ⟨k, c, r⟩ := t
      obtain ⟨hs, hk1, _, hc1⟩ := matchAt_eq hm
      have hpre : openerTok <+: s := ⟨_, hs.symm⟩
      refine ⟨hpre, ?_⟩
      have hdrop : s.drop 3 = k ++ ')' :: (c ++ (closerTok ++ r)) := by
        rw [hs]
        have hl : openerTok.length = 3 := rfl
        rw [← hl, List.drop_left]
      rw [hdrop, lineTail_append_of_not_mem hk1, ← List.singleton_append,
        lineTail_append_of_not_mem (by decide), lineTail_append_of_not_mem hc1,
        lineTail_append_of_not_mem (by decide)]
      exact ⟨k, c, lineTail r, by simp⟩
  · rintro ⟨hpre, a, b, e, hl⟩
    obtain ⟨tail', htail⟩ := lineTail_prefix (s.drop 3)
    have hnla : ('\n' : Char) ∉ a := by
      intro hm
      exact nl_not_mem_lineTail (s.drop 3)
        (by rw [hl]; exact List.mem_append_left _ hm)
    have hnlb : ('\n' : Char) ∉ b := by
      intro hm
      refine nl_not_mem_lineTail (s.drop 3) ?_
      rw [hl]
      refine List.mem_append_right _ (List.mem_cons_of_mem _ ?_)
      exact List.mem_append_left _ hm
    have hshape : s.drop 3 = a ++ ')' :: (b ++ (closerTok ++ (e ++ tail'))) := by
      rw [← htail, hl]
      simp
    have hts := tryKey_isSome hnla hnlb (e ++ tail')
    rw [← hshape] at hts
    unfold matchAt
    rw [if_pos (List.isPrefixOf_iff_prefix.mpr hpre)]
    exact hts

theorem matchAt_isSome_congr {s t : Str} (h3 : s.take 3 = t.take 3)
    (hl : lineTail (s.drop 3) = lineTail (t.drop 3)) :
    ((matchAt s).isSome ↔ (matchAt t).isSome) := by
  rw [matchAt_isSome_iff, matchAt_isSome_iff, hl]
  have hop : openerTok <+: s ↔ openerTok <+: t := by
    rw [List.prefix_iff_eq_take, List.prefix_iff_eq_take,
      show openerTok.length = 3 from rfl, h3]
  rw [hop]

theorem take_append_of_le {A : Str} (z : Str) (h : 3 ≤ A.length) :
    (A ++ z).take 3 = A.take 3 := by
  rw [List.take_append_eq_append_take, Nat.sub_eq_zero_of_le h,
    List.take_zero, List.append_nil]

theorem reSubF_succ_eq (fom : Bool) (fuel : Nat) (s : Str) (st : PatchState) :
    reSubF fom (fuel + 1) s st =
      (match matchAt s with
      | some (k, _c, rest) =>
        match applyMatch fom st k with
        | .error e => .error e
        | .ok (st', v) =>
          (reSubF fom fuel rest st').map
            (fun p => (openerTok ++ (k ++ ')' :: (v ++ (closerTok ++ p.1))), p.2))
      | none =>
        match s with
        | [] => .ok ([], st)
        | ch :: cs =>
          (reSubF fom fuel cs st).map (fun p => (ch :: p.1, p.2))) := rfl

theorem dictLookup_mem {d : List (Str × Str)} {k v : Str}
    (h : dictLookup d k = some v) : (k, v) ∈ d := by
  induction d with
  | nil => cases h
  | cons kv rest ih =>
    obtain ⟨k', v'⟩ := kv
    rw [dictLookup] at h
    by_cases hk : k' = k
    · rw [if_pos hk] at h
      injection h with hv
      subst hv
      subst hk
      exact List.mem_cons_self _ _
    · rw [if_neg hk] at h
      exact List.mem_cons_of_mem _ (ih h)

theorem reSubF_step_nil (fom : Bool) (fuel : Nat) (st : PatchState) :
    reSubF fom (fuel + 1) [] st = .ok ([], st) := rfl

theorem reSubF_step_match {s k c rest : Str} (hm : matchAt s = some (k, c, rest))
    (fom : Bool) (fuel : Nat) (st : PatchState) :
    reSubF fom (fuel + 1) s st =
      (match applyMatch fom st k with
      | .error e => .error e
      | .ok (st', v) =>
        (reSubF fom fuel rest st').map
          (fun p => (openerTok ++ (k ++ ')' :: (v ++ (closerTok ++ p.1))), p.2))) := by
  rw [reSubF_succ_eq, hm]

theorem reSubF_step_gap {ch : Char} {cs : Str} (hm : matchAt (ch :: cs) = none)
    (fom : Bool) (fuel : Nat) (st : PatchState) :
    reSubF fom (fuel + 1) (ch :: cs) st =
      (reSubF fom fuel cs st).map (fun p => (ch :: p.1, p.2)) := by
  rw [reSubF_succ_eq, hm]

theorem reSubF_step_found {fom : Bool} {s k c rest : Str}
    (hm : matchAt s = some (k, c, rest)) {st st2 : PatchState} {v : Str}
    (ha : applyMatch fom st k = .ok (st2, v)) (fuel : Nat) :
    reSubF fom (fuel + 1) s st =
      (reSubF fom fuel rest st2).map
        (fun p => (openerTok ++ (k ++ ')' :: (v ++ (closerTok ++ p.1))), p.2)) := by
  rw [reSubF_step_match hm, ha]

theorem reSubF_step_err {fom : Bool} {s k c rest : Str}
    (hm : matchAt s = some (k, c, rest)) {st : PatchState} {e : Str}
    (ha : applyMatch fom st k = .error e) (fuel : Nat) :
    reSubF fom (fuel + 1) s st = .error e := by
  rw [reSubF_step_match hm, ha]

theorem applyMatch_some {st : PatchState} {k v : Str}
    (h : dictLookup st.params k = some v) (fom : Bool) :
    applyMatch fom st k = .ok ({ st with inserted := st.inserted + 1 }, v) := by
  unfold applyMatch
  rw [h]

theorem applyMatch_none_strict {st : PatchState} {k : Str}
    (h : dictLookup st.params k = none) :
    applyMatch true st k = .error k := by
  unfold applyMatch
  rw [h]
  rfl

theorem applyMatch_none_lenient {st : PatchState} {k : Str}
    (h : dictLookup st.params k = none) :
    applyMatch false st k = .ok ({ st with params := dictInsert st.params k k }, k) := by
  unfold applyMatch
  rw [h]
  rfl

theorem findMatchesF_succ_eq (fuel : Nat) (s : Str) :
    findMatchesF (fuel + 1) s =
      (match matchAt s with
      | some (k, c, rest) => (k, c) :: findMatchesF fuel rest
      | none =>
        match s with
        | [] => []
        | _ :: cs => findMatchesF fuel cs) := rfl

theorem findMatchesF_step_nil (fuel : Nat) : findMatchesF (fuel + 1) [] = [] := rfl

theorem findMatchesF_step_match {s k c rest : Str}
    (hm : matchAt s = some (k, c, rest)) (fuel : Nat) :
    findMatchesF (fuel + 1) s = (k, c) :: findMatchesF fuel rest := by
  rw [findMatchesF_succ_eq, hm]

theorem findMatchesF_step_gap {ch : Char} {cs : Str}
    (hm : matchAt (ch :: cs) = none) (fuel : Nat) :
    findMatchesF (fuel + 1) (ch :: cs) = findMatchesF fuel cs := by
  rw [findMatchesF_succ_eq, hm]

theorem reSub_strict_corr :
    ∀ (fuel : Nat) (s : Str) (params : List (Str × Str)) (n : Nat)
      (out : Str) (st' : PatchState),
    s.length < fuel →
    reSubF true fuel s ⟨params, n⟩ = .ok (out, st') →
    st'.params = params ∧ Corr params s out := by
  intro fuel
  induction fuel with
  | zero =>
    intro s params n out st' hf
    omega
  | succ f ih =>
    intro s params n out st' hf h
    cases hm : matchAt s with
    | some t =>
      obtain ⟨k, c, rest⟩ := t
      cases hl : dictLookup params k with
      | none =>
        rw [reSubF_step_err hm (@applyMatch_none_strict ⟨params, n⟩ k hl) f] at h
        cases h
      | some v =>
        rw [reSubF_step_found hm (@applyMatch_some ⟨params, n⟩ k v hl true) f] at h
        cases hr : reSubF true f rest ⟨params, n + 1⟩ with
        | error e =>
          rw [hr] at h
          cases h
        | ok p =>
          obtain ⟨o1, st1⟩ := p
          rw [hr] at h
          simp only [Except.map] at h
          injection h with h'
          injection h' with ho hst
          subst ho
          subst hst
          have hrl : rest.length < f :=
            Nat.lt_of_lt_of_le (matchAt_rest_lt hm) (Nat.lt_succ_iff.mp hf)
          obtain ⟨hp1, hc1⟩ := ih rest params (n + 1) o1 st1 hrl hr
          exact ⟨hp1, Corr.repl hm hl hc1⟩
    | none =>
      cases s with
      | nil =>
        rw [reSubF_step_nil] at h
        injection h with h'
        injection h' with ho hst
        subst ho
        subst hst
        exact ⟨rfl, Corr.nil⟩
      | cons ch cs =>
        rw [reSubF_step_gap hm] at h
        cases hr : reSubF true f cs ⟨params, n⟩ with
        | error e =>
          rw [hr] at h
          cases h
        | ok p =>
          obtain ⟨o1, st1⟩ := p
          rw [hr] at h
          simp only [Except.map] at h
          injection h with h'
          injection h' with ho hst
          subst ho
          subst hst
          have hrl : cs.length < f := by
            simp only [List.length_cons] at hf
            omega
          obtain ⟨hp1, hc1⟩ := ih cs params n o1 st1 hrl hr
          exact ⟨hp1, Corr.gap hm hc1⟩

theorem corr_shift {params : List (Str × Str)} {s t : Str}
    (hc : Corr params s t) :
    ∀ p : Str, (matchAt (p ++ t)).isSome → (matchAt (p ++ s)).isSome := by
  induction hc with
  | nil =>
    intro p h
    simpa using h
  | @gap c s' t' hm hcorr ih =>
    intro p h
    rw [List.append_cons] at h
    have := ih (p ++ [c]) h
    rwa [← List.append_cons] at this
  | @repl s' t' k cont rest v hm hl hcorr ih =>
    intro p h
    obtain ⟨hs, hk1, hk2, hc1⟩ := matchAt_eq hm
    have hsA : p ++ s' =
        ((p ++ (openerTok ++ k)) ++ [')']) ++ (cont ++ (closerTok ++ rest)) := by
      rw [hs]
      simp
    have htA : p ++ (openerTok ++ (k ++ ')' :: (v ++ (closerTok ++ t')))) =
        ((p ++ (openerTok ++ k)) ++ [')']) ++ (v ++ (closerTok ++ t')) := by
      simp
    have h3A : 3 ≤ ((p ++ (openerTok ++ k)) ++ [')']).length := by
      simp [openerTok]
      omega
    have hdropA : ∀ z : Str, (((p ++ (openerTok ++ k)) ++ [')']) ++ z).drop 3 =
        ((p ++ (openerTok ++ k)) ++ [')']).drop 3 ++ z := by
      intro z
      rw [List.drop_append_eq_append_drop, Nat.sub_eq_zero_of_le h3A,
        List.drop_zero]
    have htake : ∀ z : Str, (((p ++ (openerTok ++ k)) ++ [')']) ++ z).take 3 =
        ((p ++ (openerTok ++ k)) ++ [')']).take 3 := fun z =>
      take_append_of_le z h3A
    by_cases hnlA : ('\n' : Char) ∈ ((p ++ (openerTok ++ k)) ++ [')']).drop 3
    · have hlt : lineTail ((p ++ s').drop 3) =
          lineTail ((p ++ (openerTok ++ (k ++ ')' :: (v ++ (closerTok ++ t'))))).drop 3) := by
        rw [hsA, htA, hdropA, hdropA, lineTail_append_of_mem hnlA,
          lineTail_append_of_mem hnlA]
      have h3eq : (p ++ s').take 3 =
          (p ++ (openerTok ++ (k ++ ')' :: (v ++ (closerTok ++ t'))))).take 3 := by
        rw [hsA, htA, htake, htake]
      exact (matchAt_isSome_congr h3eq hlt).mpr h
    · rw [matchAt_isSome_iff] at h ⊢
      obtain ⟨hpre, _⟩ := h
      constructor
      · rw [List.prefix_iff_eq_take, show openerTok.length = 3 from rfl] at hpre ⊢
        rw [hsA, htake]
        rw [htA, htake] at hpre
        exact hpre
      · have hsplit : ((p ++ (openerTok ++ k)) ++ [')']).drop 3 =
            (p ++ (openerTok ++ k)).drop 3 ++ [')'] := by
          rw [List.drop_append_eq_append_drop,
            Nat.sub_eq_zero_of_le (by simp [openerTok]; omega), List.drop_zero]
        have hnlB : ('\n' : Char) ∉ (p ++ (openerTok ++ k)).drop 3 := by
          intro hmm
          exact hnlA (by rw [hsplit]; exact List.mem_append_left _ hmm)
        rw [hsA, hdropA, hsplit]
        rw [List.append_assoc, List.singleton_append,
          lineTail_append_of_not_mem hnlB, ← List.singleton_append,
          lineTail_append_of_not_mem (by decide), lineTail_append_of_not_mem hc1,
          lineTail_append_of_not_mem (by decide)]
        exact ⟨(p ++ (openerTok ++ k)).drop 3, cont, lineTail rest, by simp⟩

theorem corr_fixpoint {params : List (Str × Str)}
    (hsafe : ∀ kv ∈ params, SafeVal kv.2) {s t : Str} (hc : Corr params s t) :
    ∀ (fuel n : Nat), t.length < fuel →
    ∃ m, reSubF true fuel t ⟨params, n⟩ = .ok (t, ⟨params, m⟩) := by
  induction hc with
  | nil =>
    intro fuel n hf
    cases fuel with
    | zero => omega
    | succ f => exact ⟨n, rfl⟩
  | @gap c s' t' hm hcorr ih =>
    intro fuel n hf
    cases fuel with
    | zero => omega
    | succ f =>
      have hmt : matchAt (c :: t') = none := by
        cases hmt : matchAt (c :: t') with
        | none => rfl
        | some x =>
          exfalso
          have hisome : (matchAt ([c] ++ t')).isSome := by
            rw [List.singleton_append, hmt]
            rfl
          have hshift := corr_shift hcorr [c] hisome
          rw [List.singleton_append, hm] at hshift
          cases hshift
      obtain ⟨m, hm2⟩ := ih f n (by
        simp only [List.length_cons] at hf
        omega)
      refine ⟨m, ?_⟩
      rw [reSubF_step_gap hmt, hm2]
      rfl
  | @repl s' t' k cont rest v hm hl hcorr ih =>
    intro fuel n hf
    cases fuel with
    | zero => omega
    | succ f =>
      obtain ⟨hs, hk1, hk2, hc1⟩ := matchAt_eq hm
      obtain ⟨hvnl, hvsafe⟩ := hsafe (k, v) (dictLookup_mem hl)
      have hmt : matchAt (openerTok ++ (k ++ ')' :: (v ++ (closerTok ++ t')))) =
          some (k, v, t') := matchAt_complete hk1 hk2 hvnl hvsafe
      have hlen : t'.length < f := by
        simp only [List.length_append, List.length_cons] at hf
        simp only [show openerTok.length = 3 from rfl,
          show closerTok.length = 5 from rfl] at hf
        omega
      obtain ⟨m, hm2⟩ := ih f (n + 1) hlen
      refine ⟨m, ?_⟩
      rw [reSubF_step_found hmt (@applyMatch_some ⟨params, n⟩ k v hl true) f, hm2]
      rfl

theorem update_readme_eq_ok {content : Str} {params : List (Str × Str)}
    {fom : Bool} {out : Str} {st : PatchState}
    (hr : reSubF fom (content.length + 1) content ⟨params, 0⟩ = .ok (out, st)) :
    update_readme content params fom = .ok ⟨0, out, st.params, st.inserted⟩ := by
  unfold update_readme
  rw [hr]

theorem update_readme_eq_err {content : Str} {params : List (Str × Str)}
    {fom : Bool} {k : Str}
    (hr : reSubF fom (content.length + 1) content ⟨params, 0⟩ = .error k) :
    update_readme content params fom = .error k := by
  unfold update_readme
  rw [hr]

theorem fileAfter_of_err {content : Str} {params : List (Str × Str)}
    {fom : Bool} {k : Str} (h : update_readme content params fom = .error k) :
    fileAfter content params fom = content := by
  unfold fileAfter
  rw [h]

theorem reSub_strict_inserted :
    ∀ (fuel : Nat) (s : Str) (params : List (Str × Str)) (n : Nat)
      (out : Str) (st' : PatchState),
    s.length < fuel →
    reSubF true fuel s ⟨params, n⟩ = .ok (out, st') →
    st'.inserted = n + (findMatchesF fuel s).length := by
  intro fuel
  induction fuel with
  | zero =>
    intro s params n out st' hf
    omega
  | succ f ih =>
    intro s params n out st' hf h
    cases hm : matchAt s with
    | some t =>
      obtain ⟨k, c, rest⟩ := t
      cases hl : dictLookup params k with
      | none =>
        rw [reSubF_step_err hm (@applyMatch_none_strict ⟨params, n⟩ k hl) f] at h
        cases h
      | some v =>
        rw [reSubF_step_found hm (@applyMatch_some ⟨params, n⟩ k v hl true) f] at h
        cases hr : reSubF true f rest ⟨params, n + 1⟩ with
        | error e =>
          rw [hr] at h
          cases h
        | ok p =>
          obtain ⟨o1, st1⟩ := p
          rw [hr] at h
          simp only [Except.map] at h
          injection h with h'
          injection h' with ho hst
          subst hst
          have hrl : rest.length < f :=
            Nat.lt_of_lt_of_le (matchAt_rest_lt hm) (Nat.lt_succ_iff.mp hf)
          have := ih rest params (n + 1) o1 st1 hrl hr
          rw [findMatchesF_step_match hm]
          simp only [List.length_cons]
          omega
    | none =>
      cases s with
      | nil =>
        rw [reSubF_step_nil] at h
        injection h with h'
        injection h' with ho hst
        subst hst
        rw [findMatchesF_step_nil]
        rfl
      | cons ch cs =>
        rw [reSubF_step_gap hm] at h
        cases hr : reSubF true f cs ⟨params, n⟩ with
        | error e =>
          rw [hr] at h
          cases h
        | ok p =>
          obtain ⟨o1, st1⟩ := p
          rw [hr] at h
          simp only [Except.map] at h
          injection h with h'
          injection h' with ho hst
          subst hst
          have hrl : cs.length < f := by
            simp only [List.length_cons] at hf
            omega
          rw [findMatchesF_step_gap hm]
          exact ih cs params n o1 st1 hrl hr

theorem reSub_strict_error :
    ∀ (fuel : Nat) (s : Str) (params : List (Str × Str)) (n : Nat),
    s.length < fuel →
    (∃ m ∈ findMatchesF fuel s, dictLookup params m.1 = none) →
    ∃ k, reSubF true fuel s ⟨params, n⟩ = .error k ∧
      dictLookup params k = none ∧ k ∈ (findMatchesF fuel s).map Prod.fst := by
  intro fuel
  induction fuel with
  | zero =>
    intro s params n hf
    omega
  | succ f ih =>
    intro s params n hf hmiss
    cases hm : matchAt s with
    | some t =>
      obtain ⟨k, c, rest⟩ := t
      rw [findMatchesF_step_match hm] at hmiss ⊢
      cases hl : dictLookup params k with
      | none =>
        exact ⟨k, reSubF_step_err hm (@applyMatch_none_strict ⟨params, n⟩ k hl) f,
          hl, by simp⟩
      | some v =>
        obtain ⟨m, hm1, hm2⟩ := hmiss
        have hmrest : m ∈ findMatchesF f rest := by
          rcases List.mem_cons.mp hm1 with he | he
          · rw [he] at hm2
            rw [hm2] at hl
            cases hl
          · exact he
        have hrl : rest.length < f :=
          Nat.lt_of_lt_of_le (matchAt_rest_lt hm) (Nat.lt_succ_iff.mp hf)
        obtain ⟨k', herr, hl', hmem⟩ := ih rest params (n + 1) hrl ⟨m, hmrest, hm2⟩
        refine ⟨k', ?_, hl', by simp [hmem]⟩
        rw [reSubF_step_found hm (@applyMatch_some ⟨params, n⟩ k v hl true) f, herr]
        rfl
    | none =>
      cases s with
      | nil =>
        rw [findMatchesF_step_nil] at hmiss
        obtain ⟨m, hm1, _⟩ := hmiss
        cases hm1
      | cons ch cs =>
        rw [findMatchesF_step_gap hm] at hmiss ⊢
        have hrl : cs.length < f := by
          simp only [List.length_cons] at hf
          omega
        obtain ⟨k', herr, hl', hmem⟩ := ih cs params n hrl hmiss
        refine ⟨k', ?_, hl', hmem⟩
        rw [reSubF_step_gap hm, herr]
        rfl

theorem reSub_lenient_ok :
    ∀ (fuel : Nat) (s : Str) (st : PatchState), s.length < fuel →
    ∃ out st', reSubF false fuel s st = .ok (out, st') := by
  intro fuel
  induction fuel with
  | zero =>
    intro s st hf
    omega
  | succ f ih =>
    intro s st hf
    cases hm : matchAt s with
    | some t =>
      obtain ⟨k, c, rest⟩ := t
      have hrl : rest.length < f :=
        Nat.lt_of_lt_of_le (matchAt_rest_lt hm) (Nat.lt_succ_iff.mp hf)
      cases hl : dictLookup st.params k with
      | none =>
        obtain ⟨o1, st1, hr⟩ :=
          ih rest { st with params := dictInsert st.params k k } hrl
        refine ⟨openerTok ++ (k ++ ')' :: (k ++ (closerTok ++ o1))), st1, ?_⟩
        rw [reSubF_step_found hm (applyMatch_none_lenient hl) f, hr]
        rfl
      | some v =>
        obtain ⟨o1, st1, hr⟩ := ih rest { st with inserted := st.inserted + 1 } hrl
        refine ⟨openerTok ++ (k ++ ')' :: (v ++ (closerTok ++ o1))), st1, ?_⟩
        rw [reSubF_step_found hm (applyMatch_some hl false) f, hr]
        rfl
    | none =>
      cases s with
      | nil => exact ⟨[], st, rfl⟩
      | cons ch cs =>
        have hrl : cs.length < f := by
          simp only [List.length_cons] at hf
          omega
        obtain ⟨o1, st1, hr⟩ := ih cs st hrl
        refine ⟨ch :: o1, st1, ?_⟩
        rw [reSubF_step_gap hm, hr]
        rfl

theorem reSub_lenient_mono :
    ∀ (fuel : Nat) (s : Str) (st : PatchState) (out : Str) (st' : PatchState),
    reSubF false fuel s st = .ok (out, st') →
    ∀ k v, dictLookup st.params k = some v → dictLookup st'.params k = some v := by
  intro fuel
  induction fuel with
  | zero =>
    intro s st out st' h k v hk
    injection h with h'
    injection h' with ho hst
    subst hst
    exact hk
  | succ f ih =>
    intro s st out st' h k v hk
    cases hm : matchAt s with
    | some t =>
      obtain ⟨k0, c, rest⟩ := t
      cases hl : dictLookup st.params k0 with
      | none =>
        rw [reSubF_step_found hm (applyMatch_none_lenient hl) f] at h
        cases hr : reSubF false f rest { st with params := dictInsert st.params k0 k0 } with
        | error e =>
          rw [hr] at h
          cases h
        | ok p =>
          obtain ⟨o1, st1⟩ := p
          rw [hr] at h
          simp only [Except.map] at h
          injection h with h'
          injection h' with ho hst
          subst hst
          refine ih rest _ o1 st1 hr k v ?_
          show dictLookup (dictInsert st.params k0 k0) k = some v
          rw [dictLookup_dictInsert]
          by_cases hkk : k0 = k
          · rw [hkk] at hl
            rw [hl] at hk
            cases hk
          · rw [if_neg hkk]
            exact hk
      | some v0 =>
        rw [reSubF_step_found hm (applyMatch_some hl false) f] at h
        cases hr : reSubF false f rest { st with inserted := st.inserted + 1 } with
        | error e =>
          rw [hr] at h
          cases h
        | ok p =>
          obtain ⟨o1, st1⟩ := p
          rw [hr] at h
          simp only [Except.map] at h
          injection h with h'
          injection h' with ho hst
          subst hst
          exact ih rest _ o1 st1 hr k v hk
    | none =>
      cases s with
      | nil =>
        rw [reSubF_step_nil] at h
        injection h with h'
        injection h' with ho hst
        subst hst
        exact hk
      | cons ch cs =>
        rw [reSubF_step_gap hm] at h
        cases hr : reSubF false f cs st with
        | error e =>
          rw [hr] at h
          cases h
        | ok p =>
          obtain ⟨o1, st1⟩ := p
          rw [hr] at h
          simp only [Except.map] at h
          injection h with h'
          injection h' with ho hst
          subst hst
          exact ih cs st o1 st1 hr k v hk

theorem reSub_lenient_covers :
    ∀ (fuel : Nat) (s : Str) (st : PatchState) (out : Str) (st' : PatchState),
    reSubF false fuel s st = .ok (out, st') →
    ∀ m ∈ findMatchesF fuel s, ∃ v, dictLookup st'.params m.1 = some v ∧
      (dictLookup st.params m.1 = none → v = m.1) := by
  intro fuel
  induction fuel with
  | zero =>
    intro s st out st' h m hm
    rw [show findMatchesF 0 s = [] from rfl] at hm
    cases hm
  | succ f ih =>
    intro s st out st' h m hm
    cases hmt : matchAt s with
    | some t =>
      obtain ⟨k0, c, rest⟩ := t
      rw [findMatchesF_step_match hmt] at hm
      cases hl : dictLookup st.params k0 with
      | none =>
        rw [reSubF_step_found hmt (applyMatch_none_lenient hl) f] at h
        cases hr : reSubF false f rest { st with params := dictInsert st.params k0 k0 } with
        | error e =>
          rw [hr] at h
          cases h
        | ok p =>
          obtain ⟨o1, st1⟩ := p
          rw [hr] at h
          simp only [Except.map] at h
          injection h with h'
          injection h' with ho hst
          subst hst
          have hins : dictLookup (dictInsert st.params k0 k0) k0 = some k0 := by
            rw [dictLookup_dictInsert, if_pos rfl]
          rcases List.mem_cons.mp hm with he | he
          · refine ⟨k0, ?_, ?_⟩
            · rw [he]
              exact reSub_lenient_mono f rest _ o1 st1 hr k0 k0 hins
            · intro _
              rw [he]
          · obtain ⟨v, hv, hcond⟩ := ih rest _ o1 st1 hr m he
            refine ⟨v, hv, ?_⟩
            intro hnone
            by_cases hkk : m.1 = k0
            · have : dictLookup (dictInsert st.params k0 k0) m.1 = some k0 := by
                rw [hkk]
                exact hins
              have hfin := reSub_lenient_mono f rest _ o1 st1 hr m.1 k0 this
              rw [hfin] at hv
              injection hv with hv'
              rw [← hv', hkk]
            · refine hcond ?_
              show dictLookup (dictInsert st.params k0 k0) m.1 = none
              rw [dictLookup_dictInsert,
                if_neg (fun hh => hkk hh.symm)]
              exact hnone
      | some v0 =>
        rw [reSubF_step_found hmt (applyMatch_some hl false) f] at h
        cases hr : reSubF false f rest { st with inserted := st.inserted + 1 } with
        | error e =>
          rw [hr] at h
          cases h
        | ok p =>
          obtain ⟨o1, st1⟩ := p
          rw [hr] at h
          simp only [Except.map] at h
          injection h with h'
          injection h' with ho hst
          subst hst
          rcases List.mem_cons.mp hm with he | he
          · refine ⟨v0, ?_, ?_⟩
            · rw [he]
              exact reSub_lenient_mono f rest _ o1 st1 hr k0 v0 hl
            · intro hnone
              rw [he] at hnone
              rw [hnone] at hl
              cases hl
          · exact ih rest _ o1 st1 hr m he
    | none =>
      cases s with
      | nil =>
        rw [findMatchesF_step_nil] at hm
        cases hm
      | cons ch cs =>
        rw [findMatchesF_step_gap hmt] at hm
        rw [reSubF_step_gap hmt] at h
        cases hr : reSubF false f cs st with
        | error e =>
          rw [hr] at h
          cases h
        | ok p =>
          obtain ⟨o1, st1⟩ := p
          rw [hr] at h
          simp only [Except.map] at h
          injection h with h'
          injection h' with ho hst
          subst hst
          exact ih cs st o1 st1 hr m hm

/-! ## Theorems: documentation patcher, the claims -/

/-- C3 counterexample: patching the document `[](Rev)old[](/)` with
`{Rev: "3"}` in strict mode rewrites one slot (the internal counter is
1) but the function RETURNS 0 (`return 0`, `main.py` 535), not the
count of slots rewritten. -/
theorem readme_patch_count_cex :
    update_readme "[](Rev)old[](/)".data [("Rev".data, "3".data)] true =
      .ok ⟨0, "[](Rev)3[](/)".data, [("Rev".data, "3".data)], 1⟩ ∧
    (findMatches "[](Rev)old[](/)".data).length = 1 ∧
    (0 : Int) ≠ 1 := by
  refine ⟨by decide, by decide, by decide⟩

/-- C3 amended: on every document and parameter mapping on which the
strict-mode patch succeeds, `update_readme` returns 0; the count of
slots rewritten is tracked in the (logged) `inserted` counter, which
then equals the number of marked spans of the document — in particular
1 for a document with exactly one marked span whose key is present. -/
theorem readme_patch_count (content : Str) (params : List (Str × Str))
    (r : PatchResult) (h : update_readme content params true = .ok r) :
    r.ret = 0 ∧ r.inserted = (findMatches content).length := by
  cases hr : reSubF true (content.length + 1) content ⟨params, 0⟩ with
  | error k =>
    rw [update_readme_eq_err hr] at h
    cases h
  | ok p =>
    obtain ⟨out, st⟩ := p
    rw [update_readme_eq_ok hr] at h
    injection h with h'
    subst h'
    refine ⟨rfl, ?_⟩
    have := reSub_strict_inserted (content.length + 1) content params 0 out st
      (Nat.lt_succ_self _) hr
    simpa [findMatches] using this

theorem readme_patch_count_witness :
    (⟨0, "[](Rev)3[](/)".data, [("Rev".data, "3".data)], 1⟩ : PatchResult).ret = 0 ∧
    (⟨0, "[](Rev)3[](/)".data, [("Rev".data, "3".data)], 1⟩ : PatchResult).inserted =
      (findMatches "[](Rev)old[](/)".data).length :=
  readme_patch_count "[](Rev)old[](/)".data [("Rev".data, "3".data)]
    ⟨0, "[](Rev)3[](/)".data, [("Rev".data, "3".data)], 1⟩ (by decide)

/-- C6: in strict mode, when some marked span's key is absent from the
parameters the patch raises `KeyError` for such a key (the first one in
scan order) and the document file is left unmodified — the file is only
rewritten after the full substitution pass succeeds. -/
theorem readme_patch_strict_missing (content : Str) (params : List (Str × Str))
    (hmiss : ∃ m ∈ findMatches content, dictLookup params m.1 = none) :
    ∃ k, update_readme content params true = .error k ∧
      dictLookup params k = none ∧ k ∈ (findMatches content).map Prod.fst ∧
      fileAfter content params true = content := by
  obtain ⟨k, herr, hl, hmem⟩ := reSub_strict_error (content.length + 1) content
    params 0 (Nat.lt_succ_self _) hmiss
  have hupd : update_readme content params true = .error k := update_readme_eq_err herr
  exact ⟨k, hupd, hl, hmem, fileAfter_of_err hupd⟩

theorem readme_patch_strict_missing_witness :
    ∃ k, update_readme "[](Rev)old[](/)".data [] true = .error k ∧
      dictLookup [] k = none ∧
      k ∈ (findMatches "[](Rev)old[](/)".data).map Prod.fst ∧
      fileAfter "[](Rev)old[](/)".data [] true = "[](Rev)old[](/)".data :=
  readme_patch_strict_missing "[](Rev)old[](/)".data [] (by decide)

/-- C7 counterexample: a parameter value containing marker text breaks
idempotence.  With `{a: "[](c)x[](/)"}` the first strict patch of
`[](a)0[](/)` succeeds, and re-running the patch on its output succeeds
but produces different content (the value's embedded closer shifts the
span boundary, appending a spurious `[](/)`). -/
theorem readme_patch_idempotent_cex :
    update_readme "[](a)0[](/)".data [("a".data, "[](c)x[](/)".data)] true =
      .ok ⟨0, "[](a)[](c)x[](/)[](/)".data,
        [("a".data, "[](c)x[](/)".data)], 1⟩ ∧
    update_readme "[](a)[](c)x[](/)[](/)".data
        [("a".data, "[](c)x[](/)".data)] true =
      .ok ⟨0, "[](a)[](c)x[](/)[](/)[](/)".data,
        [("a".data, "[](c)x[](/)".data)], 1⟩ ∧
    ("[](a)[](c)x[](/)[](/)[](/)".data : Str) ≠
      "[](a)[](c)x[](/)[](/)".data := by
  refine ⟨by decide, by decide, by decide⟩

/-- C7 amended: provided every parameter value contains no newline and
no occurrence of the closing marker `[](/)` (none straddling into a
following closer either), a successful strict-mode patch is idempotent:
re-running the patch on the patched result with the same parameters
succeeds and reproduces the same document content. -/
theorem readme_patch_idempotent (content : Str) (params : List (Str × Str))
    (hsafe : ∀ kv ∈ params, SafeVal kv.2) (r : PatchResult)
    (h : update_readme content params true = .ok r) :
    ∃ r2, update_readme r.out params true = .ok r2 ∧ r2.out = r.out := by
  cases hr : reSubF true (content.length + 1) content ⟨params, 0⟩ with
  | error k =>
    rw [update_readme_eq_err hr] at h
    cases h
  | ok p =>
    obtain ⟨out, st⟩ := p
    rw [update_readme_eq_ok hr] at h
    injection h with h'
    subst h'
    obtain ⟨hp, hcorr⟩ := reSub_strict_corr (content.length + 1) content params 0
      out st (Nat.lt_succ_self _) hr
    obtain ⟨m, hm⟩ := corr_fixpoint hsafe hcorr (out.length + 1) 0
      (Nat.lt_succ_self _)
    exact ⟨⟨0, out, params, m⟩, update_readme_eq_ok hm, rfl⟩

theorem readme_patch_idempotent_witness :
    ∃ r2, update_readme
        (⟨0, "[](Rev)3[](/)".data, [("Rev".data, "3".data)], 1⟩ : PatchResult).out
        [("Rev".data, "3".data)] true = .ok r2 ∧
      r2.out =
        (⟨0, "[](Rev)3[](/)".data, [("Rev".data, "3".data)], 1⟩ : PatchResult).out :=
  readme_patch_idempotent "[](Rev)old[](/)".data [("Rev".data, "3".data)]
    (by decide) ⟨0, "[](Rev)3[](/)".data, [("Rev".data, "3".data)], 1⟩ (by decide)

/-- C10: with `fail_on_missing = False` the patch always succeeds and
MUTATES the caller's parameters dict: every marked span whose key is
absent gets an entry mapping that key to itself, so when such a span
exists the dict observed by the caller afterwards differs from the one
passed in. -/
theorem readme_patch_lenient_mutates (content : Str) (params : List (Str × Str)) :
    ∃ r, update_readme content params false = .ok r ∧
      (∀ m ∈ findMatches content, dictLookup params m.1 = none →
        dictLookup r.params m.1 = some m.1) ∧
      ((∃ m ∈ findMatches content, dictLookup params m.1 = none) →
        r.params ≠ params) := by
  obtain ⟨out, st', hok⟩ := reSub_lenient_ok (content.length + 1) content
    ⟨params, 0⟩ (Nat.lt_succ_self _)
  refine ⟨⟨0, out, st'.params, st'.inserted⟩, update_readme_eq_ok hok, ?_, ?_⟩
  · intro m hm hnone
    obtain ⟨v, hv, hcond⟩ := reSub_lenient_covers (content.length + 1) content
      ⟨params, 0⟩ out st' hok m hm
    rw [hv, hcond hnone]
  · rintro ⟨m, hm, hnone⟩ heq
    obtain ⟨v, hv, _⟩ := reSub_lenient_covers (content.length + 1) content
      ⟨params, 0⟩ out st' hok m hm
    rw [show (⟨0, out, st'.params, st'.inserted⟩ : PatchResult).params = st'.params
      from rfl] at heq
    rw [heq, hnone] at hv
    cases hv

theorem readme_patch_lenient_mutates_witness :
    ∃ r, update_readme "[](A)x[](/)".data [] false = .ok r ∧
      (∀ m ∈ findMatches "[](A)x[](/)".data, dictLookup [] m.1 = none →
        dictLookup r.params m.1 = some m.1) ∧
      ((∃ m ∈ findMatches "[](A)x[](/)".data, dictLookup [] m.1 = none) →
        r.params ≠ []) :=
  readme_patch_lenient_mutates "[](A)x[](/)".data []

/-- C8 amended: the scanner makes a single forward pass over the lines;
a line BEGINNING with a bracketed token `[Parameter` followed by a digit
starts a two-line pair — the next line's text after its first '='
becomes the parameter name, the line after that contributes the text
after its first '=' as the value.  The result is the in-order dictionary
fold of those pairs: lookup of a duplicated name yields the LAST value,
and the keys are in first-occurrence order, without duplicates. -/
theorem readme_scan_two_line_pairs :
    (∀ lines, parse_prjpcb_params lines = (extractParamPairs lines).map buildDict) ∧
    (∀ ps key, dictLookup (buildDict ps) key = lastVal ps key) ∧
    (∀ ps, (buildDict ps).map Prod.fst = newKeys [] (ps.map Prod.fst)) ∧
    (∀ ps, ((buildDict ps).map Prod.fst).Nodup) := by
  refine ⟨?_, ?_, ?_, ?_⟩
  · intro lines
    exact parseParamLines_eq_extract lines []
  · intro ps key
    rw [buildDict, dictLookup_foldl]
    cases lastVal ps key <;> simp [dictLookup]
  · intro ps
    rw [buildDict, keys_foldl]
    simp
  · intro ps
    exact keys_foldl_nodup ps [] (by simp)

end Altiumate
